import Mathlib

/-!
# A verification development for the mini-shell (`shell.c`)

The C code is embedded shallowly.  C strings are lists of characters that do
not contain the terminator; a character buffer is a list that does contain
it; pointers into a buffer are offsets.  NULL-terminated `char **` arrays are
lists of strings.
-/

namespace Shell

/-- A C string without its terminator. -/
abbrev Text := List Char

/-- The string terminator. -/
def NUL : Char := Char.ofNat 0

/-- The test `c == ' ' || c == '\t'` used by both trimming loops. -/
def isBlank (c : Char) : Bool := c == ' ' || c == '\t'

/-- The read `*p` of the character at offset `p` of a buffer. -/
def peek (buf : List Char) (p : Nat) : Char := buf.getD p NUL

/-- The C string that starts at offset `p` of a buffer: what `strdup(p)` copies,
and whose length is `strlen(p)`. -/
def cstring (buf : List Char) (p : Nat) : Text := (buf.drop p).takeWhile (fun c => c != NUL)

/-- The call `strlen(p)`. -/
def strlen (buf : List Char) (p : Nat) : Nat := (cstring buf p).length

/-- The buffer `strdup(line)` allocates: the characters and the terminator. -/
def strdup_buf (line : Text) : List Char := line ++ [NUL]

/-- The function `count_cmd` (shell.c 53-59): the index of the first NULL entry. -/
def count_cmd (cmd : List Text) : Nat :=
  match cmd with
  | [] => 0
  | _ :: rest => count_cmd rest + 1

/-- First loop of `punctuation_split` (shell.c 68-75): counts one more than the
separators met while the quote flag is off.  The recursion argument bounds the
number of iterations by the buffer length. -/
def count_loop (buf : List Char) (punctuation : Char) : Nat → Nat → Bool → Nat → Nat
  | 0, _, _, count => count
  | fuel + 1, temp, quotes, count =>
    if peek buf temp = NUL then count
    else if peek buf temp = '"' then count_loop buf punctuation fuel (temp + 1) (!quotes) count
    else if peek buf temp = punctuation ∧ quotes = false then
      count_loop buf punctuation fuel (temp + 1) quotes (count + 1)
    else count_loop buf punctuation fuel (temp + 1) quotes count

/-- The loop `while (*token == ' ' || *token == '\t') token++` (shell.c 88-90, 106-108). -/
def skip_blanks (buf : List Char) : Nat → Nat → Nat
  | 0, token => token
  | fuel + 1, token =>
    if isBlank (peek buf token) then skip_blanks buf fuel (token + 1) else token

/-- The loop `while (end > token && (*end == ' ' || *end == '\t')) { *end = '\0'; end--; }`
(shell.c 92-95, 110-113).  `end` may be one below `token`, so it is an integer. -/
def trim_end (token : Nat) : Nat → List Char → Int → List Char
  | 0, buf, _ => buf
  | fuel + 1, buf, e =>
    if e > (token : Int) ∧ isBlank (peek buf e.toNat) = true then
      trim_end token fuel (buf.set e.toNat NUL) (e - 1)
    else buf

/-- The statement `if (strlen(token) > 0) result[index++] = strdup(token);`
(shell.c 96-98, 114-116). -/
def push_token (buf : List Char) (token : Nat) (result : List Text) : List Text :=
  if strlen buf token > 0 then result ++ [cstring buf token] else result

/-- Second loop of `punctuation_split` (shell.c 82-102).  It returns the buffer,
`start` and the strings stored in `result` so far. -/
def split_loop (punctuation : Char) :
    Nat → List Char → Nat → Nat → Bool → List Text → List Char × Nat × List Text
  | 0, buf, _, start, _, result => (buf, start, result)
  | fuel + 1, buf, temp, start, quotes, result =>
    if peek buf temp = NUL then (buf, start, result)
    else if peek buf temp = '"' then
      split_loop punctuation fuel buf (temp + 1) start (!quotes) result
    else if peek buf temp = punctuation ∧ quotes = false then
      let buf1 := buf.set temp NUL
      let token := skip_blanks buf1 buf1.length start
      let buf2 := trim_end token buf1.length buf1 ((temp : Int) - 1)
      split_loop punctuation fuel buf2 (temp + 1) (temp + 1) quotes (push_token buf2 token result)
    else split_loop punctuation fuel buf (temp + 1) start quotes result

/-- The value of `count` after the first loop of `punctuation_split`; the result
array is allocated with `count + 1` slots. -/
def punctuation_count (line : Text) (punctuation : Char) : Nat :=
  let buf := strdup_buf line
  count_loop buf punctuation buf.length 0 false 1

/-- The code after the second loop (shell.c 104-117): the last token. -/
def last_token (st : List Char × Nat × List Text) : List Text :=
  let buf := st.1
  let token := skip_blanks buf buf.length st.2.1
  let e : Int := (token : Int) + (strlen buf token : Int) - 1
  let buf3 := trim_end token buf.length buf e
  push_token buf3 token st.2.2

/-- The function `punctuation_split` (shell.c 62-120): the strings stored in the
result array before its NULL terminator. -/
def punctuation_split (line : Text) (punctuation : Char) : List Text :=
  let line_copy := strdup_buf line
  last_token (split_loop punctuation line_copy.length line_copy 0 0 false [])

/-! ## Specification-side definitions for the splitter -/

/-- Stripping leading and trailing spaces and tabs. -/
def strip (s : Text) : Text := (s.dropWhile isBlank).rdropWhile isBlank

/-- Follows the specification: the pieces obtained by cutting `rest` (the part of
`text` from offset `i`) at each separator that is preceded in `text` by an even
number of double quotes; `cur` holds the piece under construction. -/
def cut_from (text : Text) (sep : Char) : Nat → Text → Text → List Text
  | _, cur, [] => [cur]
  | i, cur, c :: rest =>
    if c = sep ∧ ((text.take i).count '"') % 2 = 0 then cur :: cut_from text sep (i + 1) [] rest
    else cut_from text sep (i + 1) (cur ++ [c]) rest

/-- Follows the specification: cut at the separators outside quoted spans, strip
each piece, drop the pieces that are then empty. -/
def split_spec (text : Text) (sep : Char) : List Text :=
  ((cut_from text sep 0 [] text).map strip).filter (fun s => !s.isEmpty)

/-- The pieces the scanning loop delimits, with the quote flag as state. -/
def pieces (sep : Char) : Bool → Text → Text → List Text
  | _, cur, [] => [cur]
  | q, cur, c :: rest =>
    if c = '"' then pieces sep (!q) (cur ++ [c]) rest
    else if c = sep ∧ q = false then cur :: pieces sep q [] rest
    else pieces sep q (cur ++ [c]) rest

/-- Strip and drop the empty strings. -/
def tidy (ps : List Text) : List Text := (ps.map strip).filter (fun s => !s.isEmpty)


/-! ## The redirection parser -/

/-- What `parse_redirection` hands back: the returned array and the two
out-parameters (`none` for NULL). -/
structure Redirection where
  args : List Text
  in_file : Option Text
  out_file : Option Text
deriving DecidableEq, Repr

/-- The string `"<"`. -/
def LT : Text := ['<']

/-- The string `">"`. -/
def GT : Text := ['>']

/-- The `for` loop of `parse_redirection` (shell.c 131-142) over the token vector;
`i` is the loop index and the first argument bounds the number of iterations. -/
def redirection_loop (tokens : List Text) : Nat → Nat → Redirection → Redirection
  | 0, _, r => r
  | fuel + 1, i, r =>
    if i < tokens.length then
      let token := tokens.getD i []
      if token = LT ∧ i + 1 < tokens.length then
        redirection_loop tokens fuel (i + 1 + 1) { r with in_file := some (tokens.getD (i + 1) []) }
      else if token = GT ∧ i + 1 < tokens.length then
        redirection_loop tokens fuel (i + 1 + 1) { r with out_file := some (tokens.getD (i + 1) []) }
      else
        redirection_loop tokens fuel (i + 1) { r with args := r.args ++ [token] }
    else r

/-- The function `parse_redirection` (shell.c 123-148) on the vector the
tokenizer returned for the stage. -/
def parse_redirection_tokens (tokens : List Text) : Redirection :=
  redirection_loop tokens tokens.length 0 { args := [], in_file := none, out_file := none }

/-- The function `parse_redirection` (shell.c 123-148); the tokenizer of
`tokenizer/tokens.h` is a parameter. -/
def parse_redirection (tokenize : Text → List Text) (cmd : Text) : Redirection :=
  parse_redirection_tokens (tokenize cmd)

/-- The part a token plays in a left-to-right scan. -/
inductive Role where
  | arg
  | operator
  | input_path
  | output_path
deriving DecidableEq, Repr

/-- Follows the specification: scanning left to right, a `<` or `>` that has a
following token is consumed together with that token; every other token stays. -/
def roles : List Text → List Role
  | [] => []
  | [_] => [Role.arg]
  | t :: f :: rest =>
    if t = LT then Role.operator :: Role.input_path :: roles rest
    else if t = GT then Role.operator :: Role.output_path :: roles rest
    else Role.arg :: roles (f :: rest)

/-- The tokens that play the part `r`, in their original order. -/
def with_role (r : Role) (tokens : List Text) : List Text :=
  ((tokens.zip (roles tokens)).filter (fun p => p.2 = r)).map (fun p => p.1)

/-- Follows the specification: the tokens not consumed, the token following the
last consumed `<`, the token following the last consumed `>`. -/
def redirection_spec (tokens : List Text) : Redirection :=
  { args := with_role Role.arg tokens
    in_file := (with_role Role.input_path tokens).getLast?
    out_file := (with_role Role.output_path tokens).getLast? }

/-- The scan of `parse_redirection` as a recursion over the remaining tokens. -/
def redirection_scan : List Text → Redirection → Redirection
  | [], r => r
  | [t], r => { r with args := r.args ++ [t] }
  | t :: f :: rest, r =>
    if t = LT then redirection_scan rest { r with in_file := some f }
    else if t = GT then redirection_scan rest { r with out_file := some f }
    else redirection_scan (f :: rest) { r with args := r.args ++ [t] }

/-- The later of two recordings: `new` when present, else `old`. -/
def later (new old : Option Text) : Option Text :=
  match new with
  | some x => some x
  | none => old

/-! ## Descriptors, processes and the system calls the shell makes -/

/-- What a descriptor refers to. -/
inductive Obj where
  | inherited (fd : Nat)
  | pipe_read (k : Nat)
  | pipe_write (k : Nat)
  | file_read (path : Text)
  | file_write (path : Text)
deriving DecidableEq, Repr

/-- A descriptor table: entry `fd` is `none` when `fd` is closed. -/
abbrev FdTable := List (Option Obj)

/-- The object descriptor `fd` refers to. -/
def fd_get (t : FdTable) (fd : Nat) : Option Obj := t.getD fd none

/-- The table with entry `fd` replaced. -/
def fd_put (t : FdTable) (fd : Nat) (o : Option Obj) : FdTable :=
  if fd < t.length then t.set fd o else t ++ List.replicate (fd - t.length) none ++ [o]

/-- The lowest closed descriptor, the one `open` and `pipe` hand out. -/
def lowest_free : FdTable → Nat
  | [] => 0
  | none :: _ => 0
  | some _ :: t => lowest_free t + 1

/-- The call `dup2(oldfd, newfd)`: no effect when `oldfd` is closed. -/
def sys_dup2 (t : FdTable) (oldfd newfd : Nat) : FdTable :=
  match fd_get t oldfd with
  | some o => fd_put t newfd (some o)
  | none => t

/-- The call `close(fd)`. -/
def sys_close (t : FdTable) (fd : Nat) : FdTable := fd_put t fd none

/-- A successful `open`: the new descriptor and the table. -/
def sys_open (t : FdTable) (o : Obj) : Nat × FdTable :=
  (lowest_free t, fd_put t (lowest_free t) (some o))

/-- What a forked child does up to the moment it leaves the shell's code. -/
inductive ChildEnd where
  | exit (status : Nat) (errors : List String)
  | exec (args : List Text) (fds : FdTable)
deriving DecidableEq, Repr

/-- What the shell process does, in order. -/
inductive Event where
  | pipe (k rd wr : Nat)
  | pipe_failed
  | fork (stage : Nat) (child : ChildEnd)
  | fork_failed (stage : Nat)
  | close (fd : Nat)
  | wait_reaped
  | wait_no_child
  | perror (what : String)
  | stderr (text : String)
  | print (text : Text)
  | chdir (dir : Text) (ok : Bool)
  | tokenize_null
deriving DecidableEq, Repr

/-- The shell process and the answers the operating system will give it:
`pipe_results` and `fork_results` are the outcomes of the coming `pipe` and
`fork` calls (success once a list is used up); `children` counts the children
not yet waited for. -/
structure Proc where
  fds : FdTable
  next_pipe : Nat
  children : Nat
  pipe_results : List Bool
  fork_results : List Bool
  prev_cmd : Text
  trace : List Event
deriving DecidableEq, Repr

/-- What lies outside `shell.c`: the tokenizer of `tokenizer/tokens.h` and the
file system. -/
structure Env where
  tokenize : Text → List Text
  can_read : Text → Bool
  can_write : Text → Bool
  can_chdir : Text → Bool
  file_lines : Text → Option (List Text)

/-- Appends an event to the trace. -/
def Proc.log (p : Proc) (e : Event) : Proc := { p with trace := p.trace ++ [e] }

/-- The call `pipe(pipes[i])`: on success the read end and the write end take the
two lowest closed descriptors. -/
def sys_pipe (p : Proc) : Option (Nat × Nat) × Proc :=
  if p.pipe_results.headD true then
    let rd := lowest_free p.fds
    let fds1 := fd_put p.fds rd (some (Obj.pipe_read p.next_pipe))
    let wr := lowest_free fds1
    let fds2 := fd_put fds1 wr (some (Obj.pipe_write p.next_pipe))
    (some (rd, wr),
      { p with fds := fds2, next_pipe := p.next_pipe + 1, pipe_results := p.pipe_results.tail,
               trace := p.trace ++ [Event.pipe p.next_pipe rd wr] })
  else
    (none, { p with pipe_results := p.pipe_results.tail, trace := p.trace ++ [Event.pipe_failed] })

/-- The loop `for (j = 0; j < num_cmds - 1; j++) { close(pipes[j][0]); close(pipes[j][1]); }`
on a descriptor table (shell.c 325-328, 337-340). -/
def close_pipes (t : FdTable) : List (Nat × Nat) → FdTable
  | [] => t
  | (rd, wr) :: rest => close_pipes (sys_close (sys_close t rd) wr) rest

/-- The file redirections of a child (shell.c 232-252, 303-322): an error with the
`perror` text when an `open` fails. -/
def redirect_files (env : Env) (in_file out_file : Option Text) (fds : FdTable) :
    Except String FdTable :=
  let after_in : Except String FdTable :=
    match in_file with
    | some f =>
      if env.can_read f then
        let (in_fd, t) := sys_open fds (Obj.file_read f)
        Except.ok (sys_close (sys_dup2 t in_fd 0) in_fd)
      else Except.error "Input redirection"
    | none => Except.ok fds
  match after_in with
  | Except.error e => Except.error e
  | Except.ok fds1 =>
    match out_file with
    | some f =>
      if env.can_write f then
        let (out_fd, t) := sys_open fds1 (Obj.file_write f)
        Except.ok (sys_close (sys_dup2 t out_fd 1) out_fd)
      else Except.error "Output redirection"
    | none => Except.ok fds1

/-- The child branch of `execute_pipeline` for stage `i` (shell.c 281-333), up to
the call of `execvp`. -/
def pipeline_child (env : Env) (num_cmds i : Nat) (pipes : List (Nat × Nat)) (cmd_i : Text)
    (fds : FdTable) : ChildEnd :=
  let r := parse_redirection env.tokenize cmd_i
  if r.args = [] then ChildEnd.exit 1 []
  else
    let fds1 := if i > 0 ∧ r.in_file = none then sys_dup2 fds (pipes.getD (i - 1) (0, 0)).1 0 else fds
    let fds2 :=
      if i < num_cmds - 1 ∧ r.out_file = none then sys_dup2 fds1 (pipes.getD i (0, 0)).2 1
      else fds1
    match redirect_files env r.in_file r.out_file fds2 with
    | Except.error e => ChildEnd.exit 1 [e]
    | Except.ok fds3 => ChildEnd.exec r.args (close_pipes fds3 pipes)

/-- The loop that creates the pipes (shell.c 271-276); `todo` is `num_cmds - 1 - i`.
The first component is `none` when a `pipe` call failed. -/
def pipe_loop : Nat → List (Nat × Nat) → Proc → Option (List (Nat × Nat)) × Proc
  | 0, pipes, p => (some pipes, p)
  | todo + 1, pipes, p =>
    match sys_pipe p with
    | (none, p1) => (none, p1.log (Event.perror "pipe"))
    | (some pr, p1) => pipe_loop todo (pipes ++ [pr]) p1

/-- The loop that forks one child per command (shell.c 279-334); `todo` is
`num_cmds - i`.  A failed `fork` returns a negative pid, which the loop body
does not look at. -/
def fork_loop (env : Env) (cmd : List Text) (num_cmds : Nat) (pipes : List (Nat × Nat)) :
    Nat → Nat → Proc → Proc
  | 0, _, p => p
  | todo + 1, i, p =>
    if p.fork_results.headD true then
      fork_loop env cmd num_cmds pipes todo (i + 1)
        { p with children := p.children + 1, fork_results := p.fork_results.tail,
                 trace := p.trace ++
                   [Event.fork i (pipeline_child env num_cmds i pipes (cmd.getD i []) p.fds)] }
    else
      fork_loop env cmd num_cmds pipes todo (i + 1)
        { p with fork_results := p.fork_results.tail,
                 trace := p.trace ++ [Event.fork_failed i] }

/-- The parent's loop that closes every pipe descriptor (shell.c 337-340). -/
def parent_close : List (Nat × Nat) → Proc → Proc
  | [], p => p
  | (rd, wr) :: rest, p =>
    parent_close rest
      { p with fds := sys_close (sys_close p.fds rd) wr,
               trace := p.trace ++ [Event.close rd, Event.close wr] }

/-- The call `wait(NULL)`: blocks until a child has terminated and reaps it, or
fails at once when there is no child. -/
def sys_wait (p : Proc) : Proc :=
  if p.children > 0 then { p with children := p.children - 1, trace := p.trace ++ [Event.wait_reaped] }
  else p.log Event.wait_no_child

/-- The loop `for (i = 0; i < num_cmds; i++) wait(NULL);` (shell.c 343-345). -/
def wait_loop : Nat → Proc → Proc
  | 0, p => p
  | todo + 1, p => wait_loop todo (sys_wait p)

/-- The function `execute_pipeline` (shell.c 266-346). -/
def execute_pipeline (env : Env) (cmd : List Text) (p : Proc) : Proc :=
  let num_cmds := count_cmd cmd
  match pipe_loop (num_cmds - 1) [] p with
  | (none, p1) => p1
  | (some pipes, p1) =>
    wait_loop num_cmds (parent_close pipes (fork_loop env cmd num_cmds pipes num_cmds 0 p1))

/-! ## The interpreter -/

/-- How a call into the interpreter ends. -/
inductive Result where
  | returned (p : Proc)
  | exited (p : Proc)
  | null_tokenized (p : Proc)
deriving DecidableEq, Repr

/-- The child branch of `execute_with_io` (shell.c 229-256), up to `execvp`. -/
def io_child (env : Env) (args : List Text) (input_file output_file : Option Text)
    (fds : FdTable) : ChildEnd :=
  match redirect_files env input_file output_file fds with
  | Except.error e => ChildEnd.exit 1 [e]
  | Except.ok fds1 => ChildEnd.exec args fds1

/-- The function `execute_with_io` (shell.c 227-263). -/
def execute_with_io (env : Env) (args : List Text) (input_file output_file : Option Text)
    (p : Proc) : Proc :=
  if p.fork_results.headD true then
    { p with children := p.children + 1 - 1, fork_results := p.fork_results.tail,
             trace := p.trace ++
               [Event.fork 0 (io_child env args input_file output_file p.fds), Event.wait_reaped] }
  else
    { p with fork_results := p.fork_results.tail,
             trace := p.trace ++ [Event.fork_failed 0, Event.perror "fork"] }

/-- The loop of `execute_source` over the lines read (shell.c 216-221). -/
def source_loop (exec_line : Proc → Text → Option Result) : List Text → Proc → Option Result
  | [], p => some (Result.returned p)
  | line :: rest, p =>
    if line.length > 0 then
      match exec_line p line with
      | some (Result.returned p1) => source_loop exec_line rest p1
      | other => other
    else source_loop exec_line rest p

/-- The function `execute_source` (shell.c 208-224); `exec_line` is `execute_line`. -/
def execute_source (exec_line : Proc → Text → Option Result) (env : Env) (filename : Text)
    (p : Proc) : Option Result :=
  match env.file_lines filename with
  | none => some (Result.returned (p.log (Event.perror "source")))
  | some lines => source_loop exec_line lines p

/-- The function `is_builtin` (shell.c 151-205); `exec_line` is `execute_line`.
The flag is the value returned. -/
def is_builtin (exec_line : Proc → Text → Option Result) (env : Env) (args : List Text)
    (p : Proc) : Option (Result × Bool) :=
  match args with
  | [] => some (Result.returned p, false)
  | a0 :: rest =>
    if a0 = "exit".toList then
      some (Result.exited (p.log (Event.print "Bye bye.".toList)), true)
    else if a0 = "cd".toList then
      match rest with
      | [] => some (Result.returned (p.log (Event.stderr "cd: expected argument")), true)
      | dir :: _ =>
        if env.can_chdir dir then some (Result.returned (p.log (Event.chdir dir true)), true)
        else some (Result.returned ((p.log (Event.chdir dir false)).log (Event.perror "cd")), true)
    else if a0 = "help".toList then
      some (Result.returned
        ((((((p.log (Event.print "Built-in commands:".toList)).log
          (Event.print "  exit - Exit the shell".toList)).log
          (Event.print "  cd [dir] - Change directory to 'dir'".toList)).log
          (Event.print "  help - Show this help message".toList)).log
          (Event.print "  prev - Execute the previous command".toList)).log
          (Event.print "  source [file] - Execute commands from 'file'".toList)), true)
    else if a0 = "prev".toList then
      if p.prev_cmd.length = 0 then
        some (Result.returned (p.log (Event.print "No previous command.".toList)), true)
      else
        match exec_line (p.log (Event.print p.prev_cmd)) p.prev_cmd with
        | some r => some (r, true)
        | none => none
    else if a0 = "source".toList then
      match rest with
      | [] => some (Result.returned (p.log (Event.stderr "source: expected filename")), true)
      | file :: _ =>
        match execute_source exec_line env file p with
        | some r => some (r, true)
        | none => none
    else some (Result.returned p, false)

/-- The function `execute_redirect` (shell.c 349-373); `none` is a NULL `cmd`,
which `parse_redirection` hands to the tokenizer. -/
def execute_redirect (exec_line : Proc → Text → Option Result) (env : Env) (cmd : Option Text)
    (p : Proc) : Option Result :=
  match cmd with
  | none => some (Result.null_tokenized (p.log Event.tokenize_null))
  | some c =>
    let r := parse_redirection env.tokenize c
    if r.args = [] then some (Result.returned p)
    else
      match is_builtin exec_line env r.args p with
      | none => none
      | some (Result.returned p1, true) => some (Result.returned p1)
      | some (Result.returned p1, false) =>
        some (Result.returned ( execute_with_io env r.args r.in_file r.out_file p1))
      | some (other, _) => some other

/-- The function `execute_sequence` (shell.c 376-386); `pipes[0]` is NULL when
the split returned no string. -/
def execute_sequence (exec_line : Proc → Text → Option Result) (env : Env) (cmd : Text)
    (p : Proc) : Option Result :=
  let pipes := punctuation_split cmd '|'
  if count_cmd pipes > 1 then some (Result.returned (execute_pipeline env pipes p))
  else execute_redirect exec_line env pipes.head? p

/-- The loop of `execute_line` over the sequences (shell.c 391-393). -/
def sequence_loop (exec_line : Proc → Text → Option Result) (env : Env) :
    List Text → Proc → Option Result
  | [], p => some (Result.returned p)
  | seq :: rest, p =>
    match execute_sequence exec_line env seq p with
    | some (Result.returned p1) => sequence_loop exec_line env rest p1
    | other => other

/-- The function `execute_line` (shell.c 389-395).  The first argument bounds the
depth of the recursion through `prev` and `source`; `none` means the bound was
reached. -/
def execute_line (env : Env) : Nat → Proc → Text → Option Result
  | 0, _, _ => none
  | depth + 1, p, line =>
    sequence_loop (execute_line env depth) env (punctuation_split line ';') p

/-- The statement `if (strcmp(line, "prev") != 0) strcpy(prev_cmd, line);`
(shell.c 420-422). -/
def record_line (p : Proc) (line : Text) : Proc :=
  if line ≠ "prev".toList then { p with prev_cmd := line } else p

/-- One turn of the loop of `main` on a line read (shell.c 411-425). -/
def main_turn (env : Env) (depth : Nat) (p : Proc) (line : Text) : Option Result :=
  if line.length = 0 then some (Result.returned p)
  else execute_line env depth (record_line p line) line

/-- The loop of `main` (shell.c 401-426) on the lines read before the end of input. -/
def main_loop (env : Env) (depth : Nat) : List Text → Proc → Option Result
  | [], p => some (Result.exited (p.log (Event.print "Bye bye.".toList)))
  | line :: rest, p =>
    match main_turn env depth p line with
    | some (Result.returned p1) => main_loop env depth rest p1
    | other => other

/-- Modelled from the spec: the tokenizer of `tokenizer/tokens.h`, which is not
part of `shell.c`.  It cuts a string into words at spaces and tabs, a
double-quoted span counting as part of one word. -/
def spec_tokenize_go : List Char → Bool → Option Text → List Text
  | [], _, none => []
  | [], _, some w => [w]
  | c :: cs, q, cur =>
    if c = '"' then spec_tokenize_go cs (!q) (some (cur.getD []))
    else if q = false ∧ isBlank c = true then
      match cur with
      | none => spec_tokenize_go cs q none
      | some w => w :: spec_tokenize_go cs q none
    else spec_tokenize_go cs q (some (cur.getD [] ++ [c]))

/-- Modelled from the spec: the tokenizer applied to a whole string. -/
def spec_tokenize (s : Text) : List Text := spec_tokenize_go s false none

/-- An environment for concrete runs: the modelled tokenizer, every file
readable and writable, no script files. -/
def sample_env : Env :=
  { tokenize := spec_tokenize
    can_read := fun _ => true
    can_write := fun _ => true
    can_chdir := fun _ => true
    file_lines := fun _ => none }

/-- A shell that has just started: descriptors 0, 1 and 2 inherited, no child,
no previous command, and the given outcomes of the coming `pipe` and `fork` calls. -/
def fresh (pipe_results fork_results : List Bool) : Proc :=
  { fds := [some (Obj.inherited 0), some (Obj.inherited 1), some (Obj.inherited 2)]
    next_pipe := 0
    children := 0
    pipe_results := pipe_results
    fork_results := fork_results
    prev_cmd := []
    trace := [] }

/-- The `pipe` events of the pipes created, numbered from `base`. -/
def pipe_events : Nat → List (Nat × Nat) → List Event
  | _, [] => []
  | base, (rd, wr) :: rest => Event.pipe base rd wr :: pipe_events (base + 1) rest

/-- The `close` events of the parent's closing loop. -/
def close_events : List (Nat × Nat) → List Event
  | [] => []
  | (rd, wr) :: rest => Event.close rd :: Event.close wr :: close_events rest

/-- The state `p` of the shell after it created `pipes` starting from `p0`:
descriptors that were open are untouched, each pipe's two ends sit on two
descriptors that were closed before, and nothing else changed. -/
structure PipesMade (p0 : Proc) (pipes : List (Nat × Nat)) (p : Proc) : Prop where
  kept : ∀ fd, fd_get p0.fds fd ≠ none → fd_get p.fds fd = fd_get p0.fds fd
  ends : ∀ j rd wr, pipes[j]? = some (rd, wr) →
    fd_get p.fds rd = some (Obj.pipe_read (p0.next_pipe + j))
    ∧ fd_get p.fds wr = some (Obj.pipe_write (p0.next_pipe + j))
  was_free : ∀ pr ∈ pipes, fd_get p0.fds pr.1 = none ∧ fd_get p0.fds pr.2 = none
  next : p.next_pipe = p0.next_pipe + pipes.length
  trace : p.trace = p0.trace ++ pipe_events p0.next_pipe pipes
  children : p.children = p0.children
  forks : p.fork_results = p0.fork_results
  prev : p.prev_cmd = p0.prev_cmd

/-- The successful forks recorded in a trace, in order: the stage and what the
child does. -/
def forks_of : List Event → List (Nat × ChildEnd)
  | [] => []
  | Event.fork i c :: rest => (i, c) :: forks_of rest
  | _ :: rest => forks_of rest

/-- Follows the specification: what standard input must be when the child of
stage `i` calls exec; `base` numbers the first pipe of the pipeline. -/
def wanted_stdin (r : Redirection) (i base : Nat) (shell_stdin : Obj) : Obj :=
  match r.in_file with
  | some f => Obj.file_read f
  | none => if 0 < i then Obj.pipe_read (base + (i - 1)) else shell_stdin

/-- Follows the specification: what standard output must be when the child of
stage `i` of `n` calls exec. -/
def wanted_stdout (r : Redirection) (i n base : Nat) (shell_stdout : Obj) : Obj :=
  match r.out_file with
  | some f => Obj.file_write f
  | none => if i < n - 1 then Obj.pipe_write (base + i) else shell_stdout

/-- The events of the fork loop of a pipeline of `n` commands from stage `i`, for
any outcomes `results` of the `fork` calls (success once the list is used up). -/
def fork_events_any (env : Env) (cmd : List Text) (n : Nat) (pipes : List (Nat × Nat))
    (fds : FdTable) : Nat → Nat → List Bool → List Event
  | 0, _, _ => []
  | todo + 1, i, results =>
    (if results.headD true then Event.fork i (pipeline_child env n i pipes (cmd.getD i []) fds)
      else Event.fork_failed i)
      :: fork_events_any env cmd n pipes fds todo (i + 1) results.tail

/-- A shell started with its standard output closed (as by `./shell >&-`):
descriptors 0 and 2 inherited, descriptor 1 closed. -/
def fresh_stdout_closed : Proc :=
  { fresh [] [] with fds := [some (Obj.inherited 0), none, some (Obj.inherited 2)] }
/-! # Theorems -/

/-! ## Buffer lemmas -/

theorem peek_append_cons (a b : List Char) (c : Char) : peek (a ++ c :: b) a.length = c := by
  unfold peek
  rw [List.getD_append_right _ _ _ _ (Nat.le_refl _)]
  simp

theorem set_append_cons (a b : List Char) (c x : Char) :
    (a ++ c :: b).set a.length x = a ++ x :: b := by
  simp

theorem NUL_not_blank : isBlank NUL = false := by decide

theorem cstring_at (pre body post : List Char) (h : ∀ c ∈ body, c ≠ NUL) :
    cstring (pre ++ body ++ NUL :: post) pre.length = body := by
  unfold cstring
  rw [List.append_assoc, List.drop_left]
  rw [List.takeWhile_append_of_pos (by simpa using h)]
  simp

theorem skip_blanks_spec (pre bl post : List Char) (c : Char)
    (hbl : ∀ x ∈ bl, isBlank x = true) (hc : isBlank c = false) (fuel : Nat)
    (hf : bl.length < fuel) :
    skip_blanks (pre ++ bl ++ c :: post) fuel pre.length = pre.length + bl.length := by
  induction bl generalizing pre fuel with
  | nil =>
    cases fuel with
    | zero => simp at hf
    | succ f =>
      have := peek_append_cons pre post c
      simp only [List.append_nil, skip_blanks, this, hc]
      simp
  | cons b bl ih =>
    cases fuel with
    | zero => simp at hf
    | succ f =>
      have hb : isBlank b = true := hbl b (by simp)
      have hp : peek (pre ++ b :: bl ++ c :: post) pre.length = b := by
        have := peek_append_cons pre (bl ++ c :: post) b
        simpa using this
      simp only [skip_blanks, hp, hb, if_true]
      have := ih (pre ++ [b]) (fun x hx => hbl x (by simp [hx])) f (by simpa using hf)
      simp only [List.length_append, List.length_singleton, List.append_assoc,
        List.singleton_append] at this
      simp only [List.append_assoc, List.cons_append, List.length_cons] at this ⊢
      rw [this]; omega

theorem trim_end_stop (token fuel : Nat) (buf : List Char) (e : Int) (h : e ≤ token) :
    trim_end token fuel buf e = buf := by
  cases fuel with
  | zero => rfl
  | succ f =>
    have : ¬ (e > (token : Int)) := by omega
    simp [trim_end, this]

theorem trim_end_spec (pre body tr post : List Char)
    (hne : body ≠ []) (hlast : isBlank (body.getLast hne) = false)
    (htr : ∀ x ∈ tr, isBlank x = true) (fuel : Nat) (hf : tr.length < fuel) :
    trim_end pre.length fuel (pre ++ body ++ tr ++ post)
        (((pre.length + body.length + tr.length : Nat) : Int) - 1)
      = pre ++ body ++ List.replicate tr.length NUL ++ post := by
  induction tr using List.reverseRecOn generalizing post fuel with
  | nil =>
    cases fuel with
    | zero => simp at hf
    | succ f =>
      obtain ⟨b0, x, rfl⟩ : ∃ b0 x, body = b0 ++ [x] :=
        ⟨body.dropLast, body.getLast hne, (List.dropLast_append_getLast hne).symm⟩
      have hx : isBlank x = false := by simpa using hlast
      have hp : peek (pre ++ (b0 ++ [x]) ++ [] ++ post) (pre.length + b0.length) = x := by
        have := peek_append_cons (pre ++ b0) post x
        simpa using this
      have hidx : ((((pre.length + (b0 ++ [x]).length + ([] : List Char).length : Nat) : Int) - 1)).toNat
          = pre.length + b0.length := by
        simp; omega
      simp only [trim_end, hidx, hp, hx]
      simp
  | append_singleton tr b ih =>
    cases fuel with
    | zero => simp at hf
    | succ f =>
      have hb : isBlank b = true := htr b (by simp)
      have hidx : ((((pre.length + body.length + (tr ++ [b]).length : Nat) : Int) - 1)).toNat
          = (pre ++ body ++ tr).length := by
        simp; omega
      have hp : peek (pre ++ body ++ (tr ++ [b]) ++ post) (pre ++ body ++ tr).length = b := by
        have := peek_append_cons (pre ++ body ++ tr) post b
        simpa using this
      have hset : (pre ++ body ++ (tr ++ [b]) ++ post).set (pre ++ body ++ tr).length NUL
          = pre ++ body ++ tr ++ (NUL :: post) := by
        simp
      have hgt : (((pre.length + body.length + (tr ++ [b]).length : Nat) : Int) - 1)
          > (pre.length : Int) := by
        have : 0 < body.length := List.length_pos.mpr hne
        simp; omega
      have hnext : (((pre.length + body.length + (tr ++ [b]).length : Nat) : Int) - 1) - 1
          = (((pre.length + body.length + tr.length : Nat) : Int) - 1) := by
        simp; omega
      rw [trim_end]
      simp only [hgt, hidx, hp, hb, and_self, if_true, hset, hnext]
      rw [ih (NUL :: post) (fun x hx => htr x (by simp [hx])) f (by simpa using hf)]
      simp [List.replicate_succ']


theorem cstring_at_pad (pre body post : List Char) (k : Nat) (h : ∀ c ∈ body, c ≠ NUL) :
    cstring (pre ++ body ++ List.replicate k NUL ++ NUL :: post) pre.length = body := by
  unfold cstring
  rw [List.append_assoc, List.append_assoc, List.drop_left]
  rw [List.takeWhile_append_of_pos (by simpa using h)]
  cases k <;> simp [List.replicate]

theorem rdropWhile_append_rtakeWhile (p : Char → Bool) (l : List Char) :
    l.rdropWhile p ++ l.rtakeWhile p = l := by
  unfold List.rdropWhile List.rtakeWhile
  rw [← List.reverse_append, List.takeWhile_append_dropWhile, List.reverse_reverse]

theorem dropWhile_head_not (p : Char → Bool) (l : List Char) (x : Char) (t : List Char)
    (h : l.dropWhile p = x :: t) : p x = false := by
  induction l with
  | nil => simp at h
  | cons a l ih =>
    rw [List.dropWhile_cons] at h
    by_cases ha : p a = true
    · simp only [ha, if_true] at h; exact ih h
    · simp only [ha] at h
      simp only [Bool.false_eq_true, if_false, List.cons.injEq] at h
      rw [← h.1]; simpa using ha

/-- What the two trimming loops and `strdup` do to one delimited piece. -/
theorem emit_spec (pre seg post : List Char) (hseg : ∀ c ∈ seg, c ≠ NUL)
    (fuel : Nat) (hf : seg.length < fuel) (e : Int)
    (he : e = ((pre.length + seg.length : Nat) : Int) - 1) :
    skip_blanks (pre ++ seg ++ NUL :: post) fuel pre.length
        = pre.length + (seg.takeWhile isBlank).length ∧
    cstring (trim_end (skip_blanks (pre ++ seg ++ NUL :: post) fuel pre.length) fuel
        (pre ++ seg ++ NUL :: post) e) (skip_blanks (pre ++ seg ++ NUL :: post) fuel pre.length)
      = strip seg ∧
    ∃ J, J.length = pre.length + seg.length ∧
      trim_end (skip_blanks (pre ++ seg ++ NUL :: post) fuel pre.length) fuel
        (pre ++ seg ++ NUL :: post) e = J ++ NUL :: post := by
  have hsplit : seg.takeWhile isBlank ++ seg.dropWhile isBlank = seg :=
    List.takeWhile_append_dropWhile isBlank seg
  have hlen : (seg.takeWhile isBlank).length + (seg.dropWhile isBlank).length = seg.length := by
    rw [← List.length_append, hsplit]
  have hlead : ∀ x ∈ seg.takeWhile isBlank, isBlank x = true :=
    fun x hx => List.mem_takeWhile_imp hx
  have hcore_nul : ∀ c ∈ seg.dropWhile isBlank, c ≠ NUL :=
    fun c hc => hseg c ((List.dropWhile_sublist isBlank).subset hc)
  cases hcore : seg.dropWhile isBlank with
  | nil =>
    have hseg_eq : seg = seg.takeWhile isBlank := by
      rw [hcore, List.append_nil] at hsplit; exact hsplit.symm
    have hlen2 : (seg.takeWhile isBlank).length = seg.length := by rw [← hseg_eq]
    have htok : skip_blanks (pre ++ seg ++ NUL :: post) fuel pre.length
        = pre.length + (seg.takeWhile isBlank).length := by
      have := skip_blanks_spec pre (seg.takeWhile isBlank) post NUL hlead NUL_not_blank fuel
        (by omega)
      rw [← hseg_eq] at this
      rw [this, hlen2]
    have hstop : trim_end (skip_blanks (pre ++ seg ++ NUL :: post) fuel pre.length) fuel
        (pre ++ seg ++ NUL :: post) e = pre ++ seg ++ NUL :: post := by
      apply trim_end_stop
      rw [htok, he]; push_cast; omega
    refine ⟨htok, ?_, pre ++ seg, by simp, hstop⟩
    rw [hstop, htok, hlen2]
    have := cstring_at (pre ++ seg) [] post (by simp)
    simp only [List.append_nil, List.length_append] at this
    rw [this]
    simp [strip, hcore]
  | cons x t =>
    have hx : isBlank x = false := dropWhile_head_not isBlank seg x t hcore
    have htok : skip_blanks (pre ++ seg ++ NUL :: post) fuel pre.length
        = pre.length + (seg.takeWhile isBlank).length := by
      have := skip_blanks_spec pre (seg.takeWhile isBlank) (t ++ NUL :: post) x hlead hx fuel
        (by omega)
      have hb : pre ++ seg ++ NUL :: post
          = pre ++ seg.takeWhile isBlank ++ x :: (t ++ NUL :: post) := by
        conv_lhs => rw [← hsplit, hcore]
        simp
      rw [hb]; exact this
    have hbody_ne : strip seg ≠ [] := by
      unfold strip
      rw [hcore]
      intro h
      rw [List.rdropWhile_eq_nil_iff] at h
      have := h x (by simp)
      rw [hx] at this; exact absurd this (by simp)
    have hlast : isBlank ((strip seg).getLast hbody_ne) = false := by
      have := List.rdropWhile_last_not (p := isBlank) (l := seg.dropWhile isBlank) hbody_ne
      simpa [strip] using this
    have hdecomp : strip seg ++ (seg.dropWhile isBlank).rtakeWhile isBlank
        = seg.dropWhile isBlank := rdropWhile_append_rtakeWhile isBlank _
    have htr : ∀ y ∈ (seg.dropWhile isBlank).rtakeWhile isBlank, isBlank y = true :=
      fun y hy => List.mem_rtakeWhile_imp hy
    have hlen3 : (strip seg).length + ((seg.dropWhile isBlank).rtakeWhile isBlank).length
        = (seg.dropWhile isBlank).length := by
      rw [← List.length_append, hdecomp]
    have hb : pre ++ seg ++ NUL :: post
        = (pre ++ seg.takeWhile isBlank) ++ strip seg
            ++ (seg.dropWhile isBlank).rtakeWhile isBlank ++ NUL :: post := by
      conv_lhs => rw [← hsplit, ← hdecomp]
      simp
    have htrim := trim_end_spec (pre ++ seg.takeWhile isBlank) (strip seg)
      ((seg.dropWhile isBlank).rtakeWhile isBlank) (NUL :: post) hbody_ne hlast htr fuel
      (by omega)
    have he2 : e = (((pre ++ seg.takeWhile isBlank).length + (strip seg).length
        + ((seg.dropWhile isBlank).rtakeWhile isBlank).length : Nat) : Int) - 1 := by
      rw [he, List.length_append]; congr 2; omega
    have hres : trim_end (skip_blanks (pre ++ seg ++ NUL :: post) fuel pre.length) fuel
        (pre ++ seg ++ NUL :: post) e
        = (pre ++ seg.takeWhile isBlank) ++ strip seg
            ++ List.replicate ((seg.dropWhile isBlank).rtakeWhile isBlank).length NUL
            ++ NUL :: post := by
      rw [htok, ← List.length_append, he2, hb]; exact htrim
    refine ⟨htok, ?_, ?_⟩
    · rw [hres, htok, ← List.length_append]
      apply cstring_at_pad
      intro c hc
      apply hcore_nul
      rw [← hdecomp]; exact List.mem_append_left _ hc
    · refine ⟨(pre ++ seg.takeWhile isBlank) ++ strip seg
            ++ List.replicate ((seg.dropWhile isBlank).rtakeWhile isBlank).length NUL, ?_, hres⟩
      simp only [List.length_append, List.length_replicate]
      omega


theorem push_token_spec (buf : List Char) (token : Nat) (result : List Text) (seg : Text)
    (h : cstring buf token = strip seg) :
    push_token buf token result = result ++ tidy [seg] := by
  unfold push_token strlen tidy
  rw [h]
  cases hs : strip seg <;> simp [hs]

theorem last_token_spec (J cur : List Char) (result : List Text)
    (hcur : ∀ c ∈ cur, c ≠ NUL) :
    last_token (J ++ cur ++ [NUL], J.length, result) = result ++ tidy [cur] := by
  have hfuel : cur.length < (J ++ cur ++ [NUL]).length := by simp; omega
  have htok := (emit_spec J cur [] hcur (J ++ cur ++ [NUL]).length hfuel _ rfl).1
  have hsplit : cur.takeWhile isBlank ++ cur.dropWhile isBlank = cur :=
    List.takeWhile_append_dropWhile isBlank cur
  have hlen : (cur.takeWhile isBlank).length + (cur.dropWhile isBlank).length = cur.length := by
    rw [← List.length_append, hsplit]
  have hstr : strlen (J ++ cur ++ [NUL]) (J.length + (cur.takeWhile isBlank).length)
      = (cur.dropWhile isBlank).length := by
    unfold strlen
    have := cstring_at (J ++ cur.takeWhile isBlank) (cur.dropWhile isBlank) []
      (fun c hc => hcur c ((List.dropWhile_sublist isBlank).subset hc))
    have hb : J ++ cur ++ [NUL]
        = (J ++ cur.takeWhile isBlank) ++ cur.dropWhile isBlank ++ NUL :: [] := by
      conv_lhs => rw [← hsplit]
      simp
    rw [hb, ← List.length_append, this]
  have he : ((skip_blanks (J ++ cur ++ [NUL]) (J ++ cur ++ [NUL]).length J.length : Nat) : Int)
      + (strlen (J ++ cur ++ [NUL]) (skip_blanks (J ++ cur ++ [NUL]) (J ++ cur ++ [NUL]).length
          J.length) : Int) - 1 = ((J.length + cur.length : Nat) : Int) - 1 := by
    rw [htok, hstr]; push_cast; omega
  have h2 := (emit_spec J cur [] hcur (J ++ cur ++ [NUL]).length hfuel _ he).2.1
  unfold last_token
  exact push_token_spec _ _ _ _ h2

theorem split_loop_spec (sep : Char) (rest : Text) :
    ∀ (J cur : List Char) (q : Bool) (result : List Text) (fuel : Nat),
      (∀ c ∈ cur, c ≠ NUL) → (∀ c ∈ rest, c ≠ NUL) → rest.length < fuel →
      last_token (split_loop sep fuel (J ++ cur ++ rest ++ [NUL]) (J.length + cur.length)
          J.length q result)
        = result ++ tidy (pieces sep q cur rest) := by
  induction rest with
  | nil =>
    intro J cur q result fuel hcur _ hf
    cases fuel with
    | zero => simp at hf
    | succ f =>
      have hp : peek (J ++ cur ++ [] ++ [NUL]) (J.length + cur.length) = NUL := by
        have := peek_append_cons (J ++ cur) [] NUL
        simpa using this
      simp only [split_loop, hp, if_true, pieces]
      have := last_token_spec J cur result hcur
      simpa using this
  | cons c rest ih =>
    intro J cur q result fuel hcur hrest hf
    cases fuel with
    | zero => simp at hf
    | succ f =>
      have hc : c ≠ NUL := hrest c (by simp)
      have hrest2 : ∀ x ∈ rest, x ≠ NUL := fun x hx => hrest x (by simp [hx])
      have hf2 : rest.length < f := by simpa using hf
      have hp : peek (J ++ cur ++ c :: rest ++ [NUL]) (J.length + cur.length) = c := by
        have := peek_append_cons (J ++ cur) (rest ++ [NUL]) c
        simpa using this
      have hcur2 : ∀ x ∈ cur ++ [c], x ≠ NUL := by
        intro x hx
        rcases List.mem_append.mp hx with h | h
        · exact hcur x h
        · simp at h; rw [h]; exact hc
      have hshift : J ++ cur ++ c :: rest ++ [NUL] = J ++ (cur ++ [c]) ++ rest ++ [NUL] := by simp
      have hlen : J.length + cur.length + 1 = J.length + (cur ++ [c]).length := by simp; omega
      rw [split_loop]
      simp only [hp, hc, if_false]
      by_cases hq : c = '"'
      · simp only [hq, if_true, pieces]
        rw [hq] at hshift hlen hcur2
        rw [hshift, hlen]
        exact ih J (cur ++ ['"']) (!q) result f hcur2 hrest2 hf2
      · simp only [hq, if_false, pieces]
        by_cases hs : c = sep ∧ q = false
        · simp only [hs, and_self, if_true]
          have hset : (J ++ cur ++ sep :: rest ++ [NUL]).set (J.length + cur.length) NUL
              = J ++ cur ++ NUL :: (rest ++ [NUL]) := by
            have := set_append_cons (J ++ cur) (rest ++ [NUL]) sep NUL
            simp at this ⊢
          rw [hset]
          have hfuel : cur.length < (J ++ cur ++ NUL :: (rest ++ [NUL])).length := by
            simp; omega
          have hemit := emit_spec J cur (rest ++ [NUL]) hcur _ hfuel
            (((J.length + cur.length : Nat) : Int) - 1) rfl
          obtain ⟨_, hcs, J2, hJ2, hbuf2⟩ := hemit
          rw [push_token_spec _ _ result cur hcs, hbuf2]
          have hform : J2 ++ NUL :: (rest ++ [NUL]) = (J2 ++ [NUL]) ++ [] ++ rest ++ [NUL] := by
            simp
          have hl : J.length + cur.length + 1
              = (J2 ++ [NUL]).length + ([] : List Char).length := by
            simp; omega
          rw [hform, hl]
          rw [List.length_nil, Nat.add_zero]
          have := ih (J2 ++ [NUL]) [] false (result ++ tidy [cur]) f (by simp) hrest2 hf2
          rw [List.length_nil, Nat.add_zero] at this
          rw [this]
          simp only [tidy, List.map_cons, List.map_nil, List.filter_cons, List.filter_nil,
            List.append_assoc]
          cases strip cur <;> simp
        · simp only [hs, if_false]
          rw [hshift, hlen]
          exact ih J (cur ++ [c]) q result f hcur2 hrest2 hf2


theorem punctuation_split_eq_pieces (text : Text) (sep : Char) (h : ∀ c ∈ text, c ≠ NUL) :
    punctuation_split text sep = tidy (pieces sep false [] text) := by
  have := split_loop_spec sep text [] [] false [] (text ++ [NUL]).length (by simp) h (by simp)
  simpa [punctuation_split, strdup_buf] using this

theorem pieces_eq_cut_from (sep : Char) (hsep : sep ≠ '"') (rest : Text) :
    ∀ (pre cur : Text) (q : Bool), (pre.count '"') % 2 = q.toNat →
      pieces sep q cur rest = cut_from (pre ++ rest) sep pre.length cur rest := by
  induction rest with
  | nil => intro pre cur q _; simp [pieces, cut_from]
  | cons c rest ih =>
    intro pre cur q hq
    have htake : (pre ++ c :: rest).take pre.length = pre := by simp
    have hnext : pre ++ c :: rest = (pre ++ [c]) ++ rest := by simp
    have hlen : pre.length + 1 = (pre ++ [c]).length := by simp
    rw [pieces, cut_from, htake]
    by_cases hc : c = '"'
    · have hne : ¬ (c = sep) := fun h => hsep (h ▸ hc)
      simp only [hc, if_true]
      rw [hc] at hne hnext hlen
      simp only [hne, false_and, if_false]
      rw [hnext, hlen]
      apply ih
      cases q <;> simp [List.count_append] at hq ⊢ <;> omega
    · simp only [hc, if_false]
      have hcount : (pre ++ [c]).count '"' = pre.count '"' := by
        simp [List.count_append, List.count_cons, Ne.symm hc]
      by_cases hs : c = sep
      · cases q with
        | false =>
          simp only [Bool.toNat_false] at hq
          simp only [hs, hq, and_self, if_true]
          rw [hs] at hnext hlen hcount
          rw [hnext, hlen]
          congr 1
          apply ih
          rw [hcount]; simpa using hq
        | true =>
          simp only [Bool.toNat_true] at hq
          have : ¬ (pre.count '"' % 2 = 0) := by omega
          simp only [this, and_false, if_false, Bool.true_eq_false]
          rw [hnext, hlen]
          apply ih
          rw [hcount]; simpa using hq
      · simp only [hs, false_and, if_false]
        rw [hnext, hlen]
        apply ih
        rw [hcount]; exact hq

/-- The code computes the specification's list. -/
theorem punctuation_split_eq_spec (text : Text) (sep : Char) (hsep : sep ≠ '"')
    (h : ∀ c ∈ text, c ≠ NUL) : punctuation_split text sep = split_spec text sep := by
  rw [punctuation_split_eq_pieces text sep h]
  have := pieces_eq_cut_from sep hsep text [] [] false (by simp)
  simp only [List.nil_append, List.length_nil] at this
  rw [this]; rfl

theorem count_loop_spec (sep : Char) (rest : Text) :
    ∀ (J cur : List Char) (q : Bool) (count fuel : Nat),
      (∀ c ∈ rest, c ≠ NUL) → rest.length < fuel →
      count_loop (J ++ rest ++ [NUL]) sep fuel J.length q count + 1
        = count + (pieces sep q cur rest).length := by
  induction rest with
  | nil =>
    intro J cur q count fuel _ hf
    cases fuel with
    | zero => simp at hf
    | succ f =>
      have hp : peek (J ++ [] ++ [NUL]) J.length = NUL := by
        have := peek_append_cons J [] NUL
        simpa using this
      simp only [count_loop, hp, if_true, pieces, List.length_singleton]
  | cons c rest ih =>
    intro J cur q count fuel hrest hf
    cases fuel with
    | zero => simp at hf
    | succ f =>
      have hc : c ≠ NUL := hrest c (by simp)
      have hrest2 : ∀ x ∈ rest, x ≠ NUL := fun x hx => hrest x (by simp [hx])
      have hf2 : rest.length < f := by simpa using hf
      have hp : peek (J ++ c :: rest ++ [NUL]) J.length = c := by
        have := peek_append_cons J (rest ++ [NUL]) c
        simpa using this
      have hshift : J ++ c :: rest ++ [NUL] = (J ++ [c]) ++ rest ++ [NUL] := by simp
      have hlen : J.length + 1 = (J ++ [c]).length := by simp
      rw [count_loop, pieces]
      simp only [hp, hc, if_false]
      rw [hshift, hlen]
      by_cases hq : c = '"'
      · simp only [hq, if_true]
        rw [← hq]
        exact ih (J ++ [c]) (cur ++ [c]) (!q) count f hrest2 hf2
      · simp only [hq, if_false]
        by_cases hs : c = sep ∧ q = false
        · simp only [hs, and_self, if_true, List.length_cons]
          have := ih (J ++ [c]) [] q (count + 1) f hrest2 hf2
          rw [hs.1, hs.2] at this
          omega
        · simp only [hs, if_false]
          exact ih (J ++ [c]) (cur ++ [c]) q count f hrest2 hf2

theorem tidy_length_le (ps : List Text) : (tidy ps).length ≤ ps.length := by
  unfold tidy
  exact (List.length_filter_le _ _).trans (by simp)

/-- The strings stored never exceed the `count` the result array was sized with. -/
theorem punctuation_split_fits (text : Text) (sep : Char) (h : ∀ c ∈ text, c ≠ NUL) :
    (punctuation_split text sep).length ≤ punctuation_count text sep := by
  rw [punctuation_split_eq_pieces text sep h]
  have := count_loop_spec sep text [] [] false 1 (text ++ [NUL]).length h (by simp)
  simp only [List.nil_append, List.length_nil] at this
  have hle := tidy_length_le (pieces sep false [] text)
  unfold punctuation_count strdup_buf
  simp only
  omega


theorem strip_head_not_blank (s : Text) (x : Char) (t : Text) (h : strip s = x :: t) :
    isBlank x = false := by
  have hpre : strip s <+: s.dropWhile isBlank := List.rdropWhile_prefix isBlank _
  obtain ⟨u, hu⟩ := hpre
  rw [h] at hu
  exact dropWhile_head_not isBlank s x (t ++ u) (by simpa using hu.symm)

theorem strip_last_not_blank (s : Text) (h : strip s ≠ []) :
    isBlank ((strip s).getLast h) = false := by
  have := List.rdropWhile_last_not (p := isBlank) (l := s.dropWhile isBlank) h
  simpa [strip] using this

theorem head_of_eq (l : List Char) (hne : l ≠ []) (x : Char) (t : List Char)
    (h : l = x :: t) : l.head hne = x := by
  subst h; rfl

theorem mem_tidy (ps : List Text) (s : Text) (h : s ∈ tidy ps) :
    ∃ p ∈ ps, strip p = s ∧ s ≠ [] := by
  unfold tidy at h
  rw [List.mem_filter, List.mem_map] at h
  obtain ⟨⟨p, hp, rfl⟩, hne⟩ := h
  refine ⟨p, hp, rfl, ?_⟩
  intro h0
  rw [h0] at hne
  simp at hne

theorem tidy_trimmed (ps : List Text) (s : Text) (h : s ∈ tidy ps) :
    ∃ hne : s ≠ [], isBlank (s.head hne) = false ∧ isBlank (s.getLast hne) = false := by
  obtain ⟨p, _, rfl, hne⟩ := mem_tidy ps s h
  refine ⟨hne, ?_, strip_last_not_blank p hne⟩
  obtain ⟨x, t, hs⟩ := List.exists_cons_of_ne_nil hne
  rw [head_of_eq (strip p) hne x t hs]
  exact strip_head_not_blank p x t hs

theorem pieces_append_sep (sep : Char) (hsep : sep ≠ '"') (a b : Text) :
    ∀ (q : Bool) (cur : Text), (a.count '"') % 2 = q.toNat →
      pieces sep q cur (a ++ sep :: b) = pieces sep q cur a ++ pieces sep false [] b := by
  induction a with
  | nil =>
    intro q cur hq
    cases q with
    | false => simp [pieces, hsep]
    | true => simp at hq
  | cons c a ih =>
    intro q cur hq
    simp only [List.cons_append, pieces]
    by_cases hc : c = '"'
    · simp only [hc, if_true]
      apply ih
      rw [hc] at hq
      cases q <;> simp at hq ⊢ <;> omega
    · have hcount : (c :: a).count '"' = a.count '"' := by
        simp [List.count_cons, Ne.symm hc]
      rw [hcount] at hq
      simp only [hc, if_false]
      by_cases hs : c = sep ∧ q = false
      · simp only [hs, and_self, if_true, List.cons_append]
        congr 1
        apply ih
        rw [hs.2] at hq; simpa using hq
      · simp only [hs, if_false]
        exact ih q (cur ++ [c]) hq

theorem tidy_append (xs ys : List Text) : tidy (xs ++ ys) = tidy xs ++ tidy ys := by
  simp [tidy]

theorem tidy_nil_piece (ys : List Text) : tidy ([] :: ys) = tidy ys := by
  simp [tidy, strip]

theorem cut_from_uncut (text : Text) (sep : Char) (rest : Text) :
    ∀ (i : Nat) (cur : Text),
      (∀ j, rest[j]? = some sep → ((text.take (i + j)).count '"') % 2 = 1) →
      cut_from text sep i cur rest = [cur ++ rest] := by
  induction rest with
  | nil => intro i cur _; simp [cut_from]
  | cons c rest ih =>
    intro i cur h
    rw [cut_from]
    have hno : ¬ (c = sep ∧ ((text.take i).count '"') % 2 = 0) := by
      rintro ⟨hc, h0⟩
      have := h 0 (by simp [hc])
      simp at this
      omega
    simp only [hno, if_false]
    rw [ih (i + 1) (cur ++ [c])]
    · simp
    · intro j hj
      have := h (j + 1) (by simpa using hj)
      rw [show i + 1 + j = i + (j + 1) by omega]
      exact this


/-! ## The redirection parser -/

theorem getD_append_cons (a b : List Text) (c : Text) : (a ++ c :: b).getD a.length [] = c := by
  rw [List.getD_append_right _ _ _ _ (Nat.le_refl _)]
  simp

theorem redirection_loop_eq_scan (n : Nat) :
    ∀ (rest pre : List Text) (r : Redirection) (fuel : Nat),
      rest.length ≤ n → rest.length ≤ fuel →
      redirection_loop (pre ++ rest) fuel pre.length r = redirection_scan rest r := by
  induction n with
  | zero =>
    intro rest pre r fuel hn _
    have : rest = [] := List.length_eq_zero.mp (Nat.le_zero.mp hn)
    subst this
    cases fuel <;> simp [redirection_loop, redirection_scan]
  | succ n ih =>
    intro rest pre r fuel hn hf
    match rest, hn, hf with
    | [], _, _ => cases fuel <;> simp [redirection_loop, redirection_scan]
    | [t], _, hf =>
      cases fuel with
      | zero => simp at hf
      | succ f =>
        have hg := getD_append_cons pre [] t
        have h0 := ih [] (pre ++ [t]) { r with args := r.args ++ [t] } f (by simp) (by simp)
        simp only [List.append_nil, List.length_append, List.length_singleton] at h0
        simp only [redirection_loop, List.length_append, List.length_singleton,
          Nat.lt_add_one, if_true, hg, Nat.lt_irrefl, and_false, if_false, redirection_scan]
        rw [h0]
        rfl
    | t :: f0 :: rest, hn, hf =>
      cases fuel with
      | zero => simp at hf
      | succ f =>
        have hg := getD_append_cons pre (f0 :: rest) t
        have hg2 : (pre ++ t :: f0 :: rest).getD (pre.length + 1) [] = f0 := by
          have := getD_append_cons (pre ++ [t]) rest f0
          simpa using this
        have hlt : pre.length < (pre ++ t :: f0 :: rest).length := by simp
        have hlt2 : pre.length + 1 < (pre ++ t :: f0 :: rest).length := by simp
        have hsh1 : pre ++ t :: f0 :: rest = (pre ++ [t]) ++ (f0 :: rest) := by simp
        have hsh2 : pre ++ t :: f0 :: rest = (pre ++ [t, f0]) ++ rest := by simp
        have hl1 : pre.length + 1 = (pre ++ [t]).length := by simp
        have hl2 : pre.length + 1 + 1 = (pre ++ [t, f0]).length := by simp
        simp only [List.length_cons] at hn hf
        rw [redirection_loop, redirection_scan]
        simp only [hlt, hlt2, if_true, hg, hg2, and_true]
        by_cases h1 : t = LT
        · simp only [h1, if_true]
          rw [← h1, hsh2, hl2]
          exact ih rest _ _ f (by omega) (by omega)
        · simp only [h1, if_false]
          by_cases h2 : t = GT
          · simp only [h2, if_true]
            rw [← h2, hsh2, hl2]
            exact ih rest _ _ f (by omega) (by omega)
          · simp only [h2, if_false]
            rw [hsh1, hl1]
            exact ih (f0 :: rest) _ _ f (by simp; omega) (by simp; omega)

theorem parse_redirection_tokens_eq_scan (tokens : List Text) :
    parse_redirection_tokens tokens
      = redirection_scan tokens { args := [], in_file := none, out_file := none } := by
  have := redirection_loop_eq_scan tokens.length tokens [] { args := [], in_file := none, out_file := none }
    tokens.length (Nat.le_refl _) (Nat.le_refl _)
  simpa [parse_redirection_tokens] using this

theorem getLast?_cons_later (f : Text) (l : List Text) :
    (f :: l).getLast? = later l.getLast? (some f) := by
  cases l with
  | nil => rfl
  | cons a l => simp [later, List.getLast?_cons_cons]; cases h : (a :: l).getLast? with
    | none => simp at h
    | some x => rfl

theorem later_none (x : Option Text) : later x none = x := by
  cases x <;> rfl

theorem with_role_op_in (r : Role) (hr : r ≠ Role.operator) (f : Text) (rest : List Text) :
    with_role r (LT :: f :: rest)
      = (if r = Role.input_path then [f] else []) ++ with_role r rest := by
  cases r <;> simp [with_role, roles] at hr ⊢

theorem with_role_op_out (r : Role) (hr : r ≠ Role.operator) (f : Text) (rest : List Text) :
    with_role r (GT :: f :: rest)
      = (if r = Role.output_path then [f] else []) ++ with_role r rest := by
  cases r <;> simp [with_role, roles, show GT ≠ LT by decide] at hr ⊢

theorem with_role_plain (r : Role) (t f : Text) (rest : List Text) (h1 : t ≠ LT) (h2 : t ≠ GT) :
    with_role r (t :: f :: rest)
      = (if r = Role.arg then [t] else []) ++ with_role r (f :: rest) := by
  cases r <;> simp [with_role, roles, h1, h2]

theorem redirection_scan_eq (n : Nat) :
    ∀ (tokens : List Text) (r : Redirection), tokens.length ≤ n →
      redirection_scan tokens r =
        { args := r.args ++ with_role Role.arg tokens
          in_file := later (with_role Role.input_path tokens).getLast? r.in_file
          out_file := later (with_role Role.output_path tokens).getLast? r.out_file } := by
  induction n with
  | zero =>
    intro tokens r hn
    have : tokens = [] := List.length_eq_zero.mp (Nat.le_zero.mp hn)
    subst this
    simp [redirection_scan, with_role, roles, later]
  | succ n ih =>
    intro tokens r hn
    match tokens, hn with
    | [], _ => simp [redirection_scan, with_role, roles, later]
    | [t], _ => simp [redirection_scan, with_role, roles, later]
    | t :: f :: rest, hn =>
      simp only [List.length_cons] at hn
      rw [redirection_scan]
      by_cases h1 : t = LT
      · subst h1
        simp only [if_true]
        rw [ih rest _ (by omega), with_role_op_in _ (by decide), with_role_op_in _ (by decide),
          with_role_op_in _ (by decide)]
        simp only [if_true, List.nil_append, List.singleton_append,
          show ¬ (Role.arg = Role.input_path) by decide,
          show ¬ (Role.output_path = Role.input_path) by decide, if_false]
        rw [getLast?_cons_later]
        cases (with_role Role.input_path rest).getLast? <;> simp [later]
      · simp only [h1, if_false]
        by_cases h2 : t = GT
        · subst h2
          simp only [if_true]
          rw [ih rest _ (by omega), with_role_op_out _ (by decide), with_role_op_out _ (by decide),
            with_role_op_out _ (by decide)]
          simp only [if_true, List.nil_append, List.singleton_append,
            show ¬ (Role.arg = Role.output_path) by decide,
            show ¬ (Role.input_path = Role.output_path) by decide, if_false]
          rw [getLast?_cons_later]
          cases (with_role Role.output_path rest).getLast? <;> simp [later]
        · simp only [h2, if_false]
          rw [ih (f :: rest) _ (by simp; omega), with_role_plain _ t f rest h1 h2,
            with_role_plain _ t f rest h1 h2, with_role_plain _ t f rest h1 h2]
          simp only [if_true, show ¬ (Role.input_path = Role.arg) by decide,
            show ¬ (Role.output_path = Role.arg) by decide, if_false, List.nil_append,
            List.append_assoc]

theorem parse_redirection_tokens_eq_spec (tokens : List Text) :
    parse_redirection_tokens tokens = redirection_spec tokens := by
  rw [parse_redirection_tokens_eq_scan, redirection_scan_eq tokens.length tokens _ (Nat.le_refl _)]
  unfold redirection_spec
  simp only [later_none, List.nil_append]

/-! ## Descriptor tables -/

theorem fd_get_put_same (t : FdTable) (fd : Nat) (o : Option Obj) :
    fd_get (fd_put t fd o) fd = o := by
  unfold fd_get fd_put
  by_cases h : fd < t.length
  · simp [h, List.getElem?_set]
  · have hle : t.length ≤ fd := Nat.le_of_not_lt h
    simp only [h, if_false]
    have hlen : (t ++ List.replicate (fd - t.length) none).length = fd := by
      simp; omega
    rw [List.getD_append_right _ _ _ _ (by omega), hlen]
    simp

theorem fd_get_put_other (t : FdTable) (fd fd' : Nat) (o : Option Obj) (hne : fd' ≠ fd) :
    fd_get (fd_put t fd o) fd' = fd_get t fd' := by
  unfold fd_get fd_put
  by_cases h : fd < t.length
  · simp [h, List.getElem?_set, Ne.symm hne]
  · have hle : t.length ≤ fd := Nat.le_of_not_lt h
    simp only [h, if_false, List.getD_eq_getElem?_getD]
    by_cases h2 : fd' < t.length
    · rw [List.getElem?_append_left (by simp; omega), List.getElem?_append_left h2]
    · have h3 : t.length ≤ fd' := Nat.le_of_not_lt h2
      rw [List.getElem?_eq_none (l := t) h3]
      by_cases h4 : fd' < fd
      · rw [List.getElem?_append_left (by simp; omega), List.getElem?_append_right h3]
        rw [List.getElem?_replicate]
        split <;> rfl
      · rw [List.getElem?_eq_none (by simp; omega)]

theorem lowest_free_get (t : FdTable) : fd_get t (lowest_free t) = none := by
  induction t with
  | nil => simp [fd_get, lowest_free]
  | cons a t ih =>
    cases a with
    | none => simp [fd_get, lowest_free]
    | some o => simpa [fd_get, lowest_free] using ih

theorem sys_dup2_get (t : FdTable) (oldfd newfd fd : Nat) (o : Obj)
    (h : fd_get t oldfd = some o) :
    fd_get (sys_dup2 t oldfd newfd) fd = if fd = newfd then some o else fd_get t fd := by
  unfold sys_dup2
  rw [h]
  by_cases hfd : fd = newfd
  · simp only [hfd, if_true]; exact fd_get_put_same _ _ _
  · simp only [hfd, if_false]; exact fd_get_put_other _ _ _ _ hfd

theorem sys_close_get (t : FdTable) (fd fd' : Nat) (hne : fd' ≠ fd) :
    fd_get (sys_close t fd) fd' = fd_get t fd' :=
  fd_get_put_other t fd fd' none hne

theorem close_pipes_get (pipes : List (Nat × Nat)) :
    ∀ (t : FdTable) (fd : Nat), (∀ pr ∈ pipes, fd ≠ pr.1 ∧ fd ≠ pr.2) →
      fd_get (close_pipes t pipes) fd = fd_get t fd := by
  induction pipes with
  | nil => intro t fd _; rfl
  | cons pr rest ih =>
    intro t fd h
    obtain ⟨rd, wr⟩ := pr
    have h0 := h (rd, wr) (by simp)
    rw [close_pipes, ih _ fd (fun q hq => h q (by simp [hq])),
      sys_close_get _ _ _ h0.2, sys_close_get _ _ _ h0.1]

/-! ## The loops of `execute_pipeline` -/

theorem count_cmd_eq_length (cmd : List Text) : count_cmd cmd = cmd.length := by
  induction cmd with
  | nil => rfl
  | cons _ rest ih => simp [count_cmd, ih]

theorem pipe_events_append (pipes : List (Nat × Nat)) :
    ∀ (base rd wr : Nat), pipe_events base (pipes ++ [(rd, wr)])
      = pipe_events base pipes ++ [Event.pipe (base + pipes.length) rd wr] := by
  induction pipes with
  | nil => intro base rd wr; simp [pipe_events]
  | cons pr rest ih =>
    intro base rd wr
    obtain ⟨a, b⟩ := pr
    rw [List.cons_append, pipe_events, pipe_events, ih, List.cons_append, List.length_cons]
    rw [show base + 1 + rest.length = base + (rest.length + 1) by omega]

theorem PipesMade.start (p : Proc) : PipesMade p [] p :=
  { kept := fun _ _ => rfl
    ends := fun j rd wr h => by simp at h
    was_free := fun pr h => by simp at h
    next := by simp
    trace := by simp [pipe_events]
    children := rfl
    forks := rfl
    prev := rfl }

theorem sys_pipe_ok (p0 p : Proc) (acc : List (Nat × Nat)) (h : PipesMade p0 acc p)
    (hok : p.pipe_results.headD true = true) :
    ∃ pr p1, sys_pipe p = (some pr, p1) ∧ PipesMade p0 (acc ++ [pr]) p1
      ∧ p1.pipe_results = p.pipe_results.tail := by
  have hrd := lowest_free_get p.fds
  have hwr := lowest_free_get (fd_put p.fds (lowest_free p.fds) (some (Obj.pipe_read p.next_pipe)))
  have hne : lowest_free (fd_put p.fds (lowest_free p.fds) (some (Obj.pipe_read p.next_pipe)))
      ≠ lowest_free p.fds := by
    intro heq
    rw [heq, fd_get_put_same] at hwr
    simp at hwr
  have hwr0 : fd_get p.fds
      (lowest_free (fd_put p.fds (lowest_free p.fds) (some (Obj.pipe_read p.next_pipe)))) = none := by
    rw [← fd_get_put_other p.fds (lowest_free p.fds) _ (some (Obj.pipe_read p.next_pipe)) hne]
    exact hwr
  have hkeep : ∀ fd, fd_get p.fds fd ≠ none →
      fd_get (fd_put (fd_put p.fds (lowest_free p.fds) (some (Obj.pipe_read p.next_pipe)))
        (lowest_free (fd_put p.fds (lowest_free p.fds) (some (Obj.pipe_read p.next_pipe))))
        (some (Obj.pipe_write p.next_pipe))) fd = fd_get p.fds fd := by
    intro fd hfd
    have h1 : fd ≠ lowest_free p.fds := fun he => hfd (he ▸ hrd)
    have h2 : fd ≠ lowest_free (fd_put p.fds (lowest_free p.fds)
        (some (Obj.pipe_read p.next_pipe))) := fun he => hfd (he ▸ hwr0)
    rw [fd_get_put_other _ _ _ _ h2, fd_get_put_other _ _ _ _ h1]
  have hfree0 : ∀ fd, fd_get p.fds fd = none → fd_get p0.fds fd = none := by
    intro fd hfd
    by_contra hc
    rw [h.kept fd hc] at hfd
    exact hc hfd
  have hsys : sys_pipe p = (some (lowest_free p.fds,
      lowest_free (fd_put p.fds (lowest_free p.fds) (some (Obj.pipe_read p.next_pipe)))),
      { p with
        fds := fd_put (fd_put p.fds (lowest_free p.fds) (some (Obj.pipe_read p.next_pipe)))
          (lowest_free (fd_put p.fds (lowest_free p.fds) (some (Obj.pipe_read p.next_pipe))))
          (some (Obj.pipe_write p.next_pipe))
        next_pipe := p.next_pipe + 1
        pipe_results := p.pipe_results.tail
        trace := p.trace ++ [Event.pipe p.next_pipe (lowest_free p.fds)
          (lowest_free (fd_put p.fds (lowest_free p.fds) (some (Obj.pipe_read p.next_pipe))))] }) := by
    simp only [sys_pipe, hok, if_true]
  refine ⟨_, _, hsys, ?_, rfl⟩
  refine
    { kept := ?_, ends := ?_, was_free := ?_, next := ?_, trace := ?_, children := h.children,
      forks := h.forks, prev := h.prev }
  · intro fd hfd
    have := h.kept fd hfd
    simp only
    rw [hkeep fd (by rw [this]; exact hfd), this]
  · intro j rd wr hj
    simp only
    by_cases hlt : j < acc.length
    · rw [List.getElem?_append_left hlt] at hj
      have he := h.ends j rd wr hj
      rw [hkeep rd (by rw [he.1]; simp), hkeep wr (by rw [he.2]; simp)]
      exact he
    · have hge : acc.length ≤ j := Nat.le_of_not_lt hlt
      rw [List.getElem?_append_right hge] at hj
      have hj0 : j - acc.length = 0 := by
        by_contra hc
        rw [List.getElem?_eq_none (by simp; omega)] at hj
        simp at hj
      rw [hj0] at hj
      simp only [List.getElem?_cons_zero, Option.some.injEq, Prod.mk.injEq] at hj
      have hjeq : j = acc.length := by omega
      rw [← hj.1, ← hj.2, hjeq, ← h.next]
      exact ⟨by rw [fd_get_put_other _ _ _ _ hne.symm, fd_get_put_same], fd_get_put_same _ _ _⟩
  · intro pr hpr
    rcases List.mem_append.mp hpr with hpr | hpr
    · exact h.was_free pr hpr
    · simp only [List.mem_singleton] at hpr
      rw [hpr]
      exact ⟨hfree0 _ hrd, hfree0 _ hwr0⟩
  · simp only [List.length_append, List.length_singleton]
    rw [h.next]; omega
  · simp only
    rw [pipe_events_append, h.trace, h.next, List.append_assoc]

theorem pipe_loop_ok (p0 : Proc) (todo : Nat) :
    ∀ (acc : List (Nat × Nat)) (p : Proc), PipesMade p0 acc p →
      (∀ b ∈ p.pipe_results, b = true) →
      ∃ pipes p1, pipe_loop todo acc p = (some pipes, p1) ∧ pipes.length = acc.length + todo
        ∧ PipesMade p0 pipes p1 := by
  induction todo with
  | zero => intro acc p h _; exact ⟨acc, p, rfl, rfl, h⟩
  | succ todo ih =>
    intro acc p h hall
    have hok : p.pipe_results.headD true = true := by
      cases hp : p.pipe_results with
      | nil => rfl
      | cons b bs => simpa using hall b (by simp [hp])
    obtain ⟨pr, p1, hsys, hmade, htail⟩ := sys_pipe_ok p0 p acc h hok
    have hall1 : ∀ b ∈ p1.pipe_results, b = true := by
      intro b hb
      rw [htail] at hb
      exact hall b (List.mem_of_mem_tail hb)
    obtain ⟨pipes, p2, hloop, hlen, hmade2⟩ := ih (acc ++ [pr]) p1 hmade hall1
    refine ⟨pipes, p2, ?_, ?_, hmade2⟩
    · rw [pipe_loop, hsys]; exact hloop
    · rw [hlen]; simp; omega

theorem parent_close_ok (pipes : List (Nat × Nat)) :
    ∀ p : Proc, parent_close pipes p
      = { p with fds := close_pipes p.fds pipes, trace := p.trace ++ close_events pipes } := by
  induction pipes with
  | nil => intro p; simp [parent_close, close_pipes, close_events]
  | cons pr rest ih =>
    intro p
    obtain ⟨rd, wr⟩ := pr
    rw [parent_close, ih]
    simp [close_pipes, close_events]

theorem open_dup_close (t : FdTable) (o : Obj) (target x : Nat) (hocc : fd_get t target ≠ none) :
    fd_get (sys_close (sys_dup2 (sys_open t o).2 (sys_open t o).1 target) (sys_open t o).1) x
      = if x = target then some o else fd_get t x := by
  have hfree := lowest_free_get t
  have hne : lowest_free t ≠ target := fun he => hocc (he ▸ hfree)
  have hget : fd_get (fd_put t (lowest_free t) (some o)) (lowest_free t) = some o :=
    fd_get_put_same _ _ _
  simp only [sys_open]
  by_cases hx : x = lowest_free t
  · have hxt : x ≠ target := fun he => hne (hx ▸ he)
    simp only [hxt, if_false]
    rw [hx]
    unfold sys_close
    rw [fd_get_put_same, hfree]
  · rw [sys_close_get _ _ _ hx, sys_dup2_get _ _ _ _ o hget]
    by_cases hxt : x = target
    · simp [hxt]
    · simp only [hxt, if_false]
      exact fd_get_put_other _ _ _ _ hx

theorem redirect_files_ok (env : Env) (in_file out_file : Option Text) (t : FdTable)
    (h0 : fd_get t 0 ≠ none) (h1 : fd_get t 1 ≠ none)
    (hin : ∀ f, in_file = some f → env.can_read f = true)
    (hout : ∀ f, out_file = some f → env.can_write f = true) :
    ∃ t1, redirect_files env in_file out_file t = Except.ok t1
      ∧ fd_get t1 0 = in_file.elim (fd_get t 0) (fun f => some (Obj.file_read f))
      ∧ fd_get t1 1 = out_file.elim (fd_get t 1) (fun f => some (Obj.file_write f)) := by
  cases in_file with
  | none =>
    cases out_file with
    | none => exact ⟨t, rfl, rfl, rfl⟩
    | some g =>
      have hg := hout g rfl
      refine ⟨_, by simp only [redirect_files, hg, if_true]; rfl, ?_, ?_⟩
      · rw [open_dup_close t _ 1 0 h1]; simp
      · rw [open_dup_close t _ 1 1 h1]; simp
  | some f =>
    have hf := hin f rfl
    have ha0 : ∀ x, fd_get (sys_close (sys_dup2 (sys_open t (Obj.file_read f)).2
        (sys_open t (Obj.file_read f)).1 0) (sys_open t (Obj.file_read f)).1) x
        = if x = 0 then some (Obj.file_read f) else fd_get t x :=
      fun x => open_dup_close t _ 0 x h0
    cases out_file with
    | none =>
      refine ⟨_, by simp only [redirect_files, hf, if_true]; rfl, ?_, ?_⟩
      · rw [ha0]; simp
      · rw [ha0]; simp
    | some g =>
      have hg := hout g rfl
      have h1b : fd_get (sys_close (sys_dup2 (sys_open t (Obj.file_read f)).2
          (sys_open t (Obj.file_read f)).1 0) (sys_open t (Obj.file_read f)).1) 1 ≠ none := by
        rw [ha0]; simpa using h1
      refine ⟨_, by simp only [redirect_files, hf, hg, if_true]; rfl, ?_, ?_⟩
      · rw [open_dup_close _ _ 1 0 h1b, ha0]; simp
      · rw [open_dup_close _ _ 1 1 h1b]; simp

theorem dup_step (t : FdTable) (c : Prop) [Decidable c] (oldfd newfd : Nat) (o : Obj)
    (h : c → fd_get t oldfd = some o) (x : Nat) :
    fd_get (if c then sys_dup2 t oldfd newfd else t) x
      = if x = newfd ∧ c then some o else fd_get t x := by
  by_cases hc : c
  · simp only [hc, if_true, and_true]
    exact sys_dup2_get t oldfd newfd x o (h hc)
  · simp only [hc, if_false, and_false]

theorem getD_pipes (pipes : List (Nat × Nat)) (j : Nat) (hj : j < pipes.length) :
    pipes[j]? = some ((pipes.getD j (0, 0)).1, (pipes.getD j (0, 0)).2) := by
  simp [List.getD_eq_getElem?_getD, List.getElem?_eq_getElem hj]

/-- The standard input and output of the child of stage `i` when it reaches `execvp`. -/
theorem pipeline_child_wiring (env : Env) (p p1 : Proc) (pipes : List (Nat × Nat))
    (n i : Nat) (stage : Text) (a b : Obj)
    (hmade : PipesMade p pipes p1) (hlen : pipes.length = n - 1) (hi : i < n)
    (h0 : fd_get p.fds 0 = some a) (h1 : fd_get p.fds 1 = some b)
    (hargs : (parse_redirection env.tokenize stage).args ≠ [])
    (hin : ∀ f, (parse_redirection env.tokenize stage).in_file = some f → env.can_read f = true)
    (hout : ∀ f, (parse_redirection env.tokenize stage).out_file = some f →
      env.can_write f = true) :
    ∃ fds, pipeline_child env n i pipes stage p1.fds
        = ChildEnd.exec (parse_redirection env.tokenize stage).args fds
      ∧ fd_get fds 0
          = some (wanted_stdin (parse_redirection env.tokenize stage) i p.next_pipe a)
      ∧ fd_get fds 1
          = some (wanted_stdout (parse_redirection env.tokenize stage) i n p.next_pipe b) := by
  have g0 : fd_get p1.fds 0 = some a := by rw [hmade.kept 0 (by rw [h0]; simp), h0]
  have g1 : fd_get p1.fds 1 = some b := by rw [hmade.kept 1 (by rw [h1]; simp), h1]
  have hpf : ∀ pr ∈ pipes, (0 ≠ pr.1 ∧ 0 ≠ pr.2) ∧ (1 ≠ pr.1 ∧ 1 ≠ pr.2) := by
    intro pr hpr
    have hw := hmade.was_free pr hpr
    refine ⟨⟨?_, ?_⟩, ?_, ?_⟩
    · intro he; rw [← he, h0] at hw; simp at hw
    · intro he; rw [← he, h0] at hw; simp at hw
    · intro he; rw [← he, h1] at hw; simp at hw
    · intro he; rw [← he, h1] at hw; simp at hw
  have hrd : (i > 0 ∧ (parse_redirection env.tokenize stage).in_file = none) →
      fd_get p1.fds (pipes.getD (i - 1) (0, 0)).1 = some (Obj.pipe_read (p.next_pipe + (i - 1))) := by
    intro hc
    exact (hmade.ends (i - 1) _ _ (getD_pipes pipes (i - 1) (by omega))).1
  have s1 := dup_step p1.fds (i > 0 ∧ (parse_redirection env.tokenize stage).in_file = none)
    (pipes.getD (i - 1) (0, 0)).1 0 _ hrd
  have hwr : (i < n - 1 ∧ (parse_redirection env.tokenize stage).out_file = none) →
      fd_get (if i > 0 ∧ (parse_redirection env.tokenize stage).in_file = none
          then sys_dup2 p1.fds (pipes.getD (i - 1) (0, 0)).1 0 else p1.fds)
        (pipes.getD i (0, 0)).2 = some (Obj.pipe_write (p.next_pipe + i)) := by
    intro hc
    have hmem : pipes.getD i (0, 0) ∈ pipes := by
      have := getD_pipes pipes i (by omega)
      exact List.mem_iff_getElem?.mpr ⟨i, this⟩
    have hne : ¬ ((pipes.getD i (0, 0)).2 = 0 ∧
        (i > 0 ∧ (parse_redirection env.tokenize stage).in_file = none)) :=
      fun h => (hpf _ hmem).1.2 h.1.symm
    rw [s1, if_neg hne]
    exact (hmade.ends i _ _ (getD_pipes pipes i (by omega))).2
  have s2 := dup_step _ (i < n - 1 ∧ (parse_redirection env.tokenize stage).out_file = none)
    (pipes.getD i (0, 0)).2 1 _ hwr
  obtain ⟨fds2, hfds2, e0, e1⟩ : ∃ fds2 : FdTable,
      fds2 = (if i < n - 1 ∧ (parse_redirection env.tokenize stage).out_file = none then
          sys_dup2 (if i > 0 ∧ (parse_redirection env.tokenize stage).in_file = none
            then sys_dup2 p1.fds (pipes.getD (i - 1) (0, 0)).1 0 else p1.fds)
            (pipes.getD i (0, 0)).2 1
        else (if i > 0 ∧ (parse_redirection env.tokenize stage).in_file = none
            then sys_dup2 p1.fds (pipes.getD (i - 1) (0, 0)).1 0 else p1.fds))
      ∧ fd_get fds2 0 = (if i > 0 ∧ (parse_redirection env.tokenize stage).in_file = none
          then some (Obj.pipe_read (p.next_pipe + (i - 1))) else some a)
      ∧ fd_get fds2 1 = (if i < n - 1 ∧ (parse_redirection env.tokenize stage).out_file = none
          then some (Obj.pipe_write (p.next_pipe + i)) else some b) :=
    ⟨_, rfl, by rw [s2 0, s1 0]; simp [g0], by rw [s2 1, s1 1]; simp [g1]⟩
  obtain ⟨t1, hred, r0, r1⟩ := redirect_files_ok env _ _ fds2
    (by rw [e0]; split <;> simp) (by rw [e1]; split <;> simp) hin hout
  refine ⟨close_pipes t1 pipes, ?_, ?_, ?_⟩
  · unfold pipeline_child
    simp only [hargs, if_false]
    rw [← hfds2, hred]
  · rw [close_pipes_get pipes t1 0 (fun pr hpr => (hpf pr hpr).1), r0, e0]
    unfold wanted_stdin
    cases (parse_redirection env.tokenize stage).in_file with
    | none => by_cases h : 0 < i <;> simp [h]
    | some f => simp
  · rw [close_pipes_get pipes t1 1 (fun pr hpr => (hpf pr hpr).2), r1, e1]
    unfold wanted_stdout
    cases (parse_redirection env.tokenize stage).out_file with
    | none => by_cases h : i < n - 1 <;> simp [h]
    | some f => simp

/-! ## The fork loop for any outcome of the `fork` calls -/

theorem fork_loop_any (env : Env) (cmd : List Text) (n : Nat) (pipes : List (Nat × Nat))
    (todo : Nat) :
    ∀ (i : Nat) (p : Proc),
      (fork_loop env cmd n pipes todo i p).trace
          = p.trace ++ fork_events_any env cmd n pipes p.fds todo i p.fork_results
      ∧ (fork_loop env cmd n pipes todo i p).fds = p.fds := by
  induction todo with
  | zero => intro i p; simp [fork_loop, fork_events_any]
  | succ todo ih =>
    intro i p
    rw [fork_loop]
    cases hok : p.fork_results.headD true with
    | true =>
      simp only [if_true]
      refine ⟨?_, (ih _ _).2⟩
      rw [(ih _ _).1]
      simp only [fork_events_any, hok, if_true, List.append_assoc, List.singleton_append]
    | false =>
      simp only [Bool.false_eq_true, if_false]
      refine ⟨?_, (ih _ _).2⟩
      rw [(ih _ _).1]
      simp only [fork_events_any, hok, Bool.false_eq_true, if_false, List.append_assoc,
        List.singleton_append]

theorem mem_fork_events_any (env : Env) (cmd : List Text) (n : Nat) (pipes : List (Nat × Nat))
    (fds : FdTable) (todo : Nat) :
    ∀ (i0 : Nat) (results : List Bool) (j : Nat) (c : ChildEnd),
      Event.fork j c ∈ fork_events_any env cmd n pipes fds todo i0 results
        ↔ (i0 ≤ j ∧ j < i0 + todo ∧ results.getD (j - i0) true = true
            ∧ c = pipeline_child env n j pipes (cmd.getD j []) fds) := by
  induction todo with
  | zero =>
    intro i0 results j c
    simp only [fork_events_any, List.not_mem_nil, false_iff]
    rintro ⟨h1, h2, _⟩
    omega
  | succ todo ih =>
    intro i0 results j c
    rw [fork_events_any, List.mem_cons, ih]
    have htail : ∀ k, results.tail.getD k true = results.getD (k + 1) true := by
      intro k; cases results <;> simp
    have hhead : results.headD true = results.getD 0 true := by cases results <;> simp
    constructor
    · rintro (h | ⟨h1, h2, h3, h4⟩)
      · by_cases hok : results.headD true = true
        · simp only [hok, if_true, Event.fork.injEq] at h
          refine ⟨by omega, by omega, ?_, by rw [h.1]; exact h.2⟩
          rw [h.1, Nat.sub_self, ← hhead]; exact hok
        · simp only [hok, if_false] at h
          exact absurd h (by simp)
      · refine ⟨by omega, by omega, ?_, h4⟩
        rw [htail, show j - (i0 + 1) + 1 = j - i0 by omega] at h3
        exact h3
    · rintro ⟨h1, h2, h3, h4⟩
      by_cases hj : j = i0
      · left
        rw [hj, Nat.sub_self, ← hhead] at h3
        simp only [h3, if_true, Event.fork.injEq]
        exact ⟨hj, by rw [h4, hj]⟩
      · right
        refine ⟨by omega, by omega, ?_, h4⟩
        rw [htail, show j - (i0 + 1) + 1 = j - i0 by omega]
        exact h3

theorem wait_loop_trace (todo : Nat) :
    ∀ p : Proc, ∃ w, (wait_loop todo p).trace = p.trace ++ w
      ∧ ∀ e ∈ w, e = Event.wait_reaped ∨ e = Event.wait_no_child := by
  induction todo with
  | zero => intro p; exact ⟨[], by simp [wait_loop], by simp⟩
  | succ todo ih =>
    intro p
    obtain ⟨w, hw, hall⟩ := ih (sys_wait p)
    rw [wait_loop, hw]
    unfold sys_wait
    by_cases hc : p.children > 0
    · refine ⟨Event.wait_reaped :: w, by simp [hc], ?_⟩
      intro e he
      rcases List.mem_cons.mp he with h | h
      · exact Or.inl h
      · exact hall e h
    · refine ⟨Event.wait_no_child :: w, by simp [hc, Proc.log], ?_⟩
      intro e he
      rcases List.mem_cons.mp he with h | h
      · exact Or.inr h
      · exact hall e h

theorem close_events_no_fork (pipes : List (Nat × Nat)) :
    ∀ i c, Event.fork i c ∉ close_events pipes := by
  induction pipes with
  | nil => intro i c; simp [close_events]
  | cons pr rest ih => intro i c; obtain ⟨a, b⟩ := pr; simp [close_events, ih]

theorem pipe_events_no_fork (pipes : List (Nat × Nat)) :
    ∀ base i c, Event.fork i c ∉ pipe_events base pipes := by
  induction pipes with
  | nil => intro base i c; simp [pipe_events]
  | cons pr rest ih => intro base i c; obtain ⟨a, b⟩ := pr; simp [pipe_events, ih]

/-- The children `execute_pipeline` forks when every `pipe` call succeeds, whatever
the outcomes of the `fork` calls: the child of stage `j` exists exactly when the
`fork` for stage `j` succeeded, and it runs the child branch on the descriptor
table left by the creation of the pipes. -/
theorem execute_pipeline_children (env : Env) (cmd : List Text) (p : Proc)
    (hpipe : ∀ b ∈ p.pipe_results, b = true) :
    ∃ pipes p1, pipes.length = cmd.length - 1 ∧ PipesMade p pipes p1
      ∧ ∀ j c, Event.fork j c ∈ (execute_pipeline env cmd p).trace.drop p.trace.length
          ↔ (j < cmd.length ∧ p.fork_results.getD j true = true
              ∧ c = pipeline_child env cmd.length j pipes (cmd.getD j []) p1.fds) := by
  obtain ⟨pipes, p1, hloop, hlen, hmade⟩ :=
    pipe_loop_ok p (cmd.length - 1) [] p (PipesMade.start p) hpipe
  refine ⟨pipes, p1, by simpa using hlen, hmade, ?_⟩
  intro j c
  obtain ⟨w, hw, hall⟩ := wait_loop_trace cmd.length
    (parent_close pipes (fork_loop env cmd cmd.length pipes cmd.length 0 p1))
  have hf := fork_loop_any env cmd cmd.length pipes cmd.length 0 p1
  have htr : (execute_pipeline env cmd p).trace
      = p.trace ++ (pipe_events p.next_pipe pipes
          ++ fork_events_any env cmd cmd.length pipes p1.fds cmd.length 0 p.fork_results
          ++ close_events pipes ++ w) := by
    unfold execute_pipeline
    simp only [count_cmd_eq_length]
    rw [hloop]
    simp only
    rw [hw, parent_close_ok]
    simp only [hf.1, hmade.trace, hmade.forks, List.append_assoc]
  rw [htr, List.drop_left]
  simp only [List.mem_append, pipe_events_no_fork, close_events_no_fork, false_or, or_false]
  rw [mem_fork_events_any]
  constructor
  · rintro (⟨_, h2, h3, h4⟩ | h)
    · exact ⟨by omega, by simpa using h3, h4⟩
    · rcases hall _ h with h | h <;> exact absurd h (by simp)
  · rintro ⟨h1, h2, h3⟩
    exact Or.inl ⟨Nat.zero_le _, by omega, by simpa using h2, h3⟩

/-! ## Claims about the splitter -/

theorem split_trailing_sep (text : Text) (sep : Char) (hsep : sep ≠ '"') (hnul : sep ≠ NUL)
    (h : ∀ c ∈ text, c ≠ NUL) (heven : (text.count '"') % 2 = 0) :
    punctuation_split (text ++ [sep]) sep = punctuation_split text sep := by
  have h2 : ∀ c ∈ text ++ [sep], c ≠ NUL := by
    intro c hc
    rcases List.mem_append.mp hc with hc | hc
    · exact h c hc
    · simp at hc; rw [hc]; exact hnul
  rw [punctuation_split_eq_pieces _ sep h2, punctuation_split_eq_pieces _ sep h,
    pieces_append_sep sep hsep text [] false [] (by simpa using heven), tidy_append]
  simp [pieces, tidy, strip]

theorem split_double_sep (a b : Text) (sep : Char) (hsep : sep ≠ '"')
    (h : ∀ c ∈ a ++ sep :: sep :: b, c ≠ NUL) (heven : (a.count '"') % 2 = 0) :
    punctuation_split (a ++ sep :: sep :: b) sep = punctuation_split (a ++ sep :: b) sep := by
  have h2 : ∀ c ∈ a ++ sep :: b, c ≠ NUL := by
    intro c hc
    apply h
    rcases List.mem_append.mp hc with hc | hc
    · exact List.mem_append_left _ hc
    · exact List.mem_append_right _ (List.mem_cons_of_mem _ hc)
  rw [punctuation_split_eq_pieces _ sep h, punctuation_split_eq_pieces _ sep h2,
    pieces_append_sep sep hsep a (sep :: b) false [] (by simpa using heven),
    pieces_append_sep sep hsep a b false [] (by simpa using heven), tidy_append, tidy_append]
  congr 1
  have : pieces sep false [] (sep :: b) = [] :: pieces sep false [] b := by
    simp [pieces, hsep]
  rw [this, tidy_nil_piece]

theorem strip_ne_nil_of_mem (text : Text) (c : Char) (hc : c ∈ text) (hcb : isBlank c = false) :
    strip text ≠ [] := by
  unfold strip
  intro h0
  rw [List.rdropWhile_eq_nil_iff] at h0
  have hall : ∀ x ∈ text, isBlank x = true := by
    intro x hx
    by_contra hxb
    have hmem : x ∈ text.dropWhile isBlank := by
      have hs := List.takeWhile_append_dropWhile isBlank text
      rw [← hs] at hx
      rcases List.mem_append.mp hx with hx | hx
      · exact absurd (List.mem_takeWhile_imp hx) hxb
      · exact hx
    exact hxb (h0 x hmem)
  rw [hall c hc] at hcb
  exact absurd hcb (by simp)

theorem split_uncut (text : Text) (sep : Char) (hsep : sep ≠ '"')
    (h : ∀ c ∈ text, c ≠ NUL)
    (hq : ∀ i, text[i]? = some sep → ((text.take i).count '"') % 2 = 1) :
    punctuation_split text sep = if strip text = [] then [] else [strip text] := by
  rw [punctuation_split_eq_spec text sep hsep h]
  unfold split_spec
  rw [cut_from_uncut text sep text 0 [] (by simpa using hq)]
  cases hs : strip text <;> simp [hs]

/-- C1: for a separator other than the double quote, `punctuation_split` returns
exactly the list the specification describes (cut at the separators preceded by
an even number of double quotes, strip spaces and tabs, drop the empty pieces),
and that list fits the result array.  The text is any C string (no NUL inside).
In particular every returned segment is non-empty and neither begins nor ends
with a space or tab; a trailing separator and a doubled separator outside quoted
spans add no segment; and a text whose separators all lie inside quoted spans is
not cut: when it has a separator (or any character other than a space or tab)
the result is the single segment made of its stripped text. -/
theorem punctuation_split_contract (text : Text) (sep : Char) (hsep : sep ≠ '"')
    (htext : ∀ c ∈ text, c ≠ NUL) :
    punctuation_split text sep = split_spec text sep
    ∧ (punctuation_split text sep).length ≤ punctuation_count text sep
    ∧ (∀ s ∈ punctuation_split text sep,
        ∃ hne : s ≠ [], isBlank (s.head hne) = false ∧ isBlank (s.getLast hne) = false)
    ∧ (sep ≠ NUL → (text.count '"') % 2 = 0 →
        punctuation_split (text ++ [sep]) sep = punctuation_split text sep)
    ∧ (∀ a b, text = a ++ sep :: sep :: b → (a.count '"') % 2 = 0 →
        punctuation_split text sep = punctuation_split (a ++ sep :: b) sep)
    ∧ ((∀ i, text[i]? = some sep → ((text.take i).count '"') % 2 = 1) →
        punctuation_split text sep = (if strip text = [] then [] else [strip text])
        ∧ ((sep ∈ text ∨ ∃ c ∈ text, isBlank c = false) →
            punctuation_split text sep = [strip text])) := by
  refine ⟨punctuation_split_eq_spec text sep hsep htext, punctuation_split_fits text sep htext,
    ?_, ?_, ?_, ?_⟩
  · intro s hs
    rw [punctuation_split_eq_pieces text sep htext] at hs
    exact tidy_trimmed _ s hs
  · intro hnul heven
    exact split_trailing_sep text sep hsep hnul htext heven
  · intro a b hab heven
    subst hab
    exact split_double_sep a b sep hsep htext heven
  · intro hq
    have hu := split_uncut text sep hsep htext hq
    refine ⟨hu, ?_⟩
    intro hex
    have hnb : ∃ c ∈ text, isBlank c = false := by
      rcases hex with hmem | hnb
      · obtain ⟨i, hi⟩ := List.mem_iff_getElem?.mp hmem
        have hodd := hq i hi
        have hpos : 0 < (text.take i).count '"' := by omega
        have hin : '"' ∈ text.take i := List.count_pos_iff.mp hpos
        exact ⟨'"', List.mem_of_mem_take hin, by decide⟩
      · exact hnb
    obtain ⟨c, hc, hcb⟩ := hnb
    have hne : strip text ≠ [] := strip_ne_nil_of_mem text c hc hcb
    rw [hu]; simp [hne]

/-- Witness for C1 at the specification's example: the quoted `;` does not cut. -/
theorem punctuation_split_contract_witness :
    punctuation_split "\"a;b\" echo".toList ';' = split_spec "\"a;b\" echo".toList ';'
    ∧ punctuation_split "\"a;b\" echo".toList ';' = ["\"a;b\" echo".toList]
    ∧ punctuation_split " ls -l ;; echo hi ; ".toList ';' = ["ls -l".toList, "echo hi".toList] :=
  ⟨(punctuation_split_contract "\"a;b\" echo".toList ';' (by decide) (by decide)).1,
    by decide, by decide⟩

/-! ## The `prev` builtin and the recorded line -/

theorem prev_is_dispatched (f : Proc → Text → Option Result) (p : Proc)
    (hp : p.prev_cmd.length ≠ 0) (hf : f (p.log (Event.print p.prev_cmd)) p.prev_cmd = none) :
    execute_sequence f sample_env "prev".toList p = none := by
  have h2 : punctuation_split "prev".toList '|' = ["prev".toList] := by decide
  have h3 : parse_redirection sample_env.tokenize "prev".toList
      = { args := ["prev".toList], in_file := none, out_file := none } := by decide
  have e1 : ¬ ("prev".toList = "exit".toList) := by decide
  have e2 : ¬ ("prev".toList = "cd".toList) := by decide
  have e3 : ¬ ("prev".toList = "help".toList) := by decide
  rw [execute_sequence]
  simp only [h2, count_cmd, Nat.lt_irrefl, if_false, List.head?_cons, execute_redirect, h3,
    is_builtin, e1, e2, e3, if_true, hp, hf]
  simp

theorem execute_line_prev_space (depth : Nat) :
    ∀ p : Proc, p.prev_cmd = "prev ".toList →
      execute_line sample_env depth p "prev ".toList = none := by
  induction depth with
  | zero => intro p _; rfl
  | succ d ih =>
    intro p hp
    have h1 : punctuation_split "prev ".toList ';' = ["prev".toList] := by decide
    rw [execute_line, h1, sequence_loop, prev_is_dispatched]
    · rw [hp]; decide
    · rw [hp]
      exact ih _ (by simp [Proc.log, hp])

theorem execute_line_ls_prev (depth : Nat) :
    ∀ p : Proc, p.prev_cmd = "ls ; prev".toList →
      execute_line sample_env depth p "ls ; prev".toList = none := by
  induction depth with
  | zero => intro p _; rfl
  | succ d ih =>
    intro p hp
    have h1 : punctuation_split "ls ; prev".toList ';' = ["ls".toList, "prev".toList] := by
      decide
    have h2 : punctuation_split "ls".toList '|' = ["ls".toList] := by decide
    have h3 : parse_redirection sample_env.tokenize "ls".toList
        = { args := ["ls".toList], in_file := none, out_file := none } := by decide
    have hls : ∃ p1, execute_sequence (execute_line sample_env d) sample_env "ls".toList p
        = some (Result.returned p1) ∧ p1.prev_cmd = p.prev_cmd := by
      refine ⟨ execute_with_io sample_env ["ls".toList] none none p, ?_, ?_⟩
      · rw [execute_sequence]
        simp only [h2, count_cmd, Nat.lt_irrefl, if_false, List.head?_cons, execute_redirect, h3,
          is_builtin, show ¬ ("ls".toList = "exit".toList) by decide,
          show ¬ ("ls".toList = "cd".toList) by decide,
          show ¬ ("ls".toList = "help".toList) by decide,
          show ¬ ("ls".toList = "prev".toList) by decide,
          show ¬ ("ls".toList = "source".toList) by decide]
        simp
      · unfold execute_with_io
        split <;> rfl
    obtain ⟨p1, hrun, hprev⟩ := hls
    rw [execute_line, h1, sequence_loop, hrun]
    simp only
    rw [sequence_loop, prev_is_dispatched]
    · rw [hprev, hp]; decide
    · rw [hprev, hp]
      exact ih _ (by simp [Proc.log, hprev, hp])

/-- C10 fails for the lines `prev ` and `ls ; prev`: neither equals `prev`, so
`main` records each as the previous line; its stage `prev` then dispatches to the
`prev` builtin, which runs the recorded line again, and so on: whatever bound is
put on the depth of the recursion, `execute_line` does not return within it. -/
theorem prev_recursion_unbounded :
    (record_line (fresh [] []) "prev ".toList).prev_cmd = "prev ".toList
    ∧ (record_line (fresh [] []) "ls ; prev".toList).prev_cmd = "ls ; prev".toList
    ∧ (∀ depth, main_turn sample_env depth (fresh [] []) "prev ".toList = none)
    ∧ (∀ depth, main_turn sample_env depth (fresh [] []) "ls ; prev".toList = none)
    ∧ (∃ p, main_loop sample_env 2 ["ls".toList, "prev".toList] (fresh [] [])
        = some (Result.exited p)) := by
  refine ⟨by decide, by decide, ?_, ?_, ?_⟩
  · intro depth
    exact execute_line_prev_space depth _ (by decide)
  · intro depth
    exact execute_line_ls_prev depth _ (by decide)
  · exact ⟨_, rfl⟩

/-! ## Claims about the redirection parser -/

theorem getLast?_cons_of_ne_nil {α : Type} (x : α) (l : List α) (h : l ≠ []) :
    (x :: l).getLast? = l.getLast? := by
  cases l with
  | nil => exact absurd rfl h
  | cons a l => exact List.getLast?_cons_cons

theorem roles_ne_nil (t : Text) (rest : List Text) : roles (t :: rest) ≠ [] := by
  cases rest with
  | nil => simp [roles]
  | cons f rest =>
    rw [roles]
    split
    · simp
    · split <;> simp

theorem roles_length (n : Nat) :
    ∀ tokens : List Text, tokens.length ≤ n → (roles tokens).length = tokens.length := by
  induction n with
  | zero =>
    intro tokens hn
    have : tokens = [] := List.length_eq_zero.mp (Nat.le_zero.mp hn)
    subst this
    simp [roles]
  | succ n ih =>
    intro tokens hn
    match tokens, hn with
    | [], _ => simp [roles]
    | [t], _ => simp [roles]
    | t :: f :: rest, hn =>
      simp only [List.length_cons] at hn
      have h1 := ih rest (by omega)
      have h2 := ih (f :: rest) (by simp; omega)
      rw [roles]
      split
      · simp [h1]
      · split
        · simp [h1]
        · simp only [List.length_cons] at h2 ⊢
          omega

theorem roles_last (n : Nat) :
    ∀ tokens : List Text, tokens.length ≤ n →
      (roles tokens).getLast? ≠ some Role.operator
      ∧ ((roles tokens).getLast? = some Role.arg →
          (with_role Role.arg tokens).getLast? = tokens.getLast?) := by
  induction n with
  | zero =>
    intro tokens hn
    have : tokens = [] := List.length_eq_zero.mp (Nat.le_zero.mp hn)
    subst this
    simp [roles, with_role]
  | succ n ih =>
    intro tokens hn
    match tokens, hn with
    | [], _ => simp [roles, with_role]
    | [t], _ => simp [roles, with_role]
    | t :: f :: rest, hn =>
      simp only [List.length_cons] at hn
      have hcases : ∀ (p : Role), p ≠ Role.operator → p ≠ Role.arg →
          roles (t :: f :: rest) = Role.operator :: p :: roles rest →
          with_role Role.arg (t :: f :: rest) = with_role Role.arg rest →
          (roles (t :: f :: rest)).getLast? ≠ some Role.operator
          ∧ ((roles (t :: f :: rest)).getLast? = some Role.arg →
            (with_role Role.arg (t :: f :: rest)).getLast? = (t :: f :: rest).getLast?) := by
        intro p hp1 hp2 hr hw
        rw [hr, hw]
        cases rest with
        | nil =>
          simp only [roles, List.getLast?_cons_cons, List.getLast?_singleton]
          exact ⟨by simpa using hp1, fun h => absurd (by simpa using h) hp2⟩
        | cons a rest =>
          have h3 := ih (a :: rest) (by simp at hn ⊢; omega)
          rw [List.getLast?_cons_cons, getLast?_cons_of_ne_nil _ _ (roles_ne_nil a rest),
            List.getLast?_cons_cons, List.getLast?_cons_cons]
          exact h3
      by_cases h1 : t = LT
      · subst h1
        exact hcases Role.input_path (by decide) (by decide) (by simp [roles])
          (by rw [with_role_op_in _ (by decide)]; simp)
      · by_cases h2 : t = GT
        · subst h2
          exact hcases Role.output_path (by decide) (by decide)
            (by simp [roles, show GT ≠ LT by decide])
            (by rw [with_role_op_out _ (by decide)]; simp)
        · have hr : roles (t :: f :: rest) = Role.arg :: roles (f :: rest) := by
            simp [roles, h1, h2]
          have h3 := ih (f :: rest) (by simp; omega)
          rw [hr, with_role_plain _ t f rest h1 h2,
            getLast?_cons_of_ne_nil _ _ (roles_ne_nil f rest), List.getLast?_cons_cons]
          refine ⟨h3.1, fun h => ?_⟩
          have h4 := h3.2 h
          simp only [if_true, List.singleton_append]
          rw [getLast?_cons_of_ne_nil _ _ ?_]
          · exact h4
          · intro h0
            rw [h0, List.getLast?_nil] at h4
            exact absurd (List.getLast?_eq_none_iff.mp h4.symm) (by simp)

/-- C2 (as amended): on every token sequence `parse_redirection` returns the
tokens a left-to-right scan does not consume, in their original order, where a
`<` or `>` that has a following token is consumed together with that token;
`in_file` is the token following the last consumed `<` and `out_file` the token
following the last consumed `>` (absent when there is none).  The last token is
never consumed as an operator; it is the last element of the returned arguments
unless it is itself the token that follows a consumed `<` or `>`. -/
theorem parse_redirection_contract (tokens : List Text) :
    parse_redirection_tokens tokens = redirection_spec tokens
    ∧ (roles tokens).length = tokens.length
    ∧ (roles tokens).getLast? ≠ some Role.operator
    ∧ ((roles tokens).getLast? = some Role.arg →
        (parse_redirection_tokens tokens).args.getLast? = tokens.getLast?) := by
  have h := roles_last tokens.length tokens (Nat.le_refl _)
  refine ⟨parse_redirection_tokens_eq_spec tokens, ?_, h.1, ?_⟩
  · exact roles_length tokens.length tokens (Nat.le_refl _)
  · intro ha
    rw [parse_redirection_tokens_eq_spec]
    exact h.2 ha

/-- C2 as stated fails at the tokens `<` `<`: the last token is a `<`, yet it is
consumed as the path of the first `<` and does not appear in the arguments. -/
theorem trailing_operator_counterexample :
    parse_redirection_tokens [LT, LT] = { args := [], in_file := some LT, out_file := none }
    ∧ LT ∉ (parse_redirection_tokens [LT, LT]).args := by
  decide

/-- Witness for the amended C2 at `cat < in >`: the trailing `>` stays in the
arguments. -/
theorem parse_redirection_contract_witness :
    (parse_redirection_tokens ["cat".toList, LT, "in".toList, GT]).args.getLast?
      = ["cat".toList, LT, "in".toList, GT].getLast? :=
  (parse_redirection_contract ["cat".toList, LT, "in".toList, GT]).2.2.2 (by decide)

/-! ## Claims about `execute_pipeline` -/

/-- C3 (as amended): in a pipeline of N > 1 stages whose `pipe` calls succeed, run
by a shell whose own descriptors 0 and 1 are open, take a stage `i` whose `fork`
succeeds, whose arguments are non-empty and whose redirection files open.  Exactly one child is
forked for stage `i`, it reaches exec with the stage's arguments, and at that
moment its standard input is the input file if the stage names one, else the
read end of pipe `i-1` if `i > 0`, else the shell's standard input; its standard
output is the output file if the stage names one, else the write end of pipe `i`
if `i < N-1`, else the shell's standard output. -/
theorem execute_pipeline_wiring (env : Env) (cmd : List Text) (p : Proc) (a b : Obj)
    (i : Nat) (hN : 1 < cmd.length) (hi : i < cmd.length)
    (hpipe : ∀ x ∈ p.pipe_results, x = true) (hfork : p.fork_results.getD i true = true)
    (h0 : fd_get p.fds 0 = some a) (h1 : fd_get p.fds 1 = some b)
    (hargs : (parse_redirection env.tokenize (cmd.getD i [])).args ≠ [])
    (hin : ∀ f, (parse_redirection env.tokenize (cmd.getD i [])).in_file = some f →
      env.can_read f = true)
    (hout : ∀ f, (parse_redirection env.tokenize (cmd.getD i [])).out_file = some f →
      env.can_write f = true) :
    ∃ fds,
      (∀ c, Event.fork i c ∈ (execute_pipeline env cmd p).trace.drop p.trace.length
        ↔ c = ChildEnd.exec (parse_redirection env.tokenize (cmd.getD i [])).args fds)
      ∧ fd_get fds 0 = some (wanted_stdin (parse_redirection env.tokenize (cmd.getD i []))
          i p.next_pipe a)
      ∧ fd_get fds 1 = some (wanted_stdout (parse_redirection env.tokenize (cmd.getD i []))
          i cmd.length p.next_pipe b) := by
  obtain ⟨pipes, p1, hlen, hmade, hch⟩ := execute_pipeline_children env cmd p hpipe
  have _ := hN
  obtain ⟨fds, hchild, w0, w1⟩ := pipeline_child_wiring env p p1 pipes cmd.length i
    (cmd.getD i []) a b hmade hlen hi h0 h1 hargs hin hout
  refine ⟨fds, ?_, w0, w1⟩
  intro c
  rw [hch, hchild]
  exact ⟨fun h => h.2.2, fun h => ⟨hi, hfork, h⟩⟩

/-- Witness for the amended C3: stage 1 of `echo hi | cat > out` in a fresh shell. -/
theorem execute_pipeline_wiring_witness :
    ∃ fds,
      (∀ c, Event.fork 1 c ∈ (execute_pipeline sample_env
          ["echo hi".toList, "cat > out".toList] (fresh [] [])).trace.drop
            (fresh [] []).trace.length
        ↔ c = ChildEnd.exec (parse_redirection sample_env.tokenize
            (["echo hi".toList, "cat > out".toList].getD 1 [])).args fds)
      ∧ fd_get fds 0 = some (wanted_stdin (parse_redirection sample_env.tokenize
          (["echo hi".toList, "cat > out".toList].getD 1 [])) 1 (fresh [] []).next_pipe
          (Obj.inherited 0))
      ∧ fd_get fds 1 = some (wanted_stdout (parse_redirection sample_env.tokenize
          (["echo hi".toList, "cat > out".toList].getD 1 [])) 1
          ["echo hi".toList, "cat > out".toList].length (fresh [] []).next_pipe
          (Obj.inherited 1)) :=
  execute_pipeline_wiring sample_env ["echo hi".toList, "cat > out".toList] (fresh [] [])
    (Obj.inherited 0) (Obj.inherited 1) 1 (by decide) (by decide) (by decide) (by decide)
    rfl rfl (by decide) (fun _ _ => rfl) (fun _ _ => rfl)

/-- C3 as stated fails for a shell whose standard output is closed: in `a | b` the
first `pipe` then returns the descriptors 1 and 3, the child of stage 0 duplicates
the write end 3 onto descriptor 1, and the loop that closes every pipe descriptor
closes 1 and 3, so the child reaches exec with its standard output closed and not
on the write end of pipe 0. -/
theorem closed_stdout_counterexample :
    (execute_pipeline sample_env ["a".toList, "b".toList] fresh_stdout_closed).trace
      = [Event.pipe 0 1 3,
         Event.fork 0 (ChildEnd.exec ["a".toList]
           [some (Obj.inherited 0), none, some (Obj.inherited 2), none]),
         Event.fork 1 (ChildEnd.exec ["b".toList]
           [some (Obj.pipe_read 0), none, some (Obj.inherited 2), none]),
         Event.close 1, Event.close 3, Event.wait_reaped, Event.wait_reaped]
    ∧ (parse_redirection sample_env.tokenize "a".toList).args = ["a".toList]
    ∧ (parse_redirection sample_env.tokenize "a".toList).out_file = none
    ∧ fd_get [some (Obj.inherited 0), none, some (Obj.inherited 2), none] 1 = none
    ∧ fd_get [some (Obj.inherited 0), none, some (Obj.inherited 2), none] 1
        ≠ some (Obj.pipe_write 0) := by
  decide

/-! ## Claims about empty stages and failed system calls -/

theorem split_bar_semicolon : punctuation_split "|".toList ';' = ["|".toList] := by decide

theorem split_bar_bar : punctuation_split "|".toList '|' = [] := by decide

/-- C5 fails on the line `|`: the `;` split hands `|` to `execute_sequence`, whose
`|` split returns no string at all, so `pipes[0]` is NULL; `execute_redirect` is
called with that NULL and passes it on to the tokenizer. -/
theorem empty_pipeline_reads_null (env : Env) (depth : Nat) (p : Proc) :
    punctuation_split "|".toList ';' = ["|".toList]
    ∧ punctuation_split "|".toList '|' = []
    ∧ execute_line env (depth + 1) p "|".toList
        = some (Result.null_tokenized (p.log Event.tokenize_null)) := by
  refine ⟨split_bar_semicolon, split_bar_bar, ?_⟩
  have hbar : punctuation_split ['|'] '|' = [] := by decide
  rw [execute_line, split_bar_semicolon]
  simp [sequence_loop, execute_sequence, hbar, count_cmd, execute_redirect]

/-- C7 fails when a later `pipe` call fails: in `a | b | c` with the second `pipe`
failing, `execute_pipeline` returns with both ends of the first pipe still open
in the shell (descriptors 3 and 4), after reporting the failure. -/
theorem pipe_failure_leaks_descriptors :
    (execute_pipeline sample_env ["a".toList, "b".toList, "c".toList]
        (fresh [true, false] [])).trace = [Event.pipe 0 3 4, Event.pipe_failed, Event.perror "pipe"]
    ∧ fd_get (execute_pipeline sample_env ["a".toList, "b".toList, "c".toList]
        (fresh [true, false] [])).fds 3 = some (Obj.pipe_read 0)
    ∧ fd_get (execute_pipeline sample_env ["a".toList, "b".toList, "c".toList]
        (fresh [true, false] [])).fds 4 = some (Obj.pipe_write 0) := by
  decide

/-- C8 fails when `fork` fails in a pipeline: in `a | b` with the first `fork`
failing, nothing is written to the error stream and the pipeline goes on: stage 1
is forked, the pipe is closed and the shell waits twice. -/
theorem fork_failure_goes_unreported :
    (execute_pipeline sample_env ["a".toList, "b".toList] (fresh [] [false])).trace
      = [Event.pipe 0 3 4, Event.fork_failed 0,
         Event.fork 1 (ChildEnd.exec ["b".toList]
           [some (Obj.pipe_read 0), some (Obj.inherited 1), some (Obj.inherited 2), none, none]),
         Event.close 3, Event.close 4, Event.wait_reaped, Event.wait_no_child]
    ∧ (execute_with_io sample_env ["a".toList] none none (fresh [] [false])).trace
      = [Event.fork_failed 0, Event.perror "fork"] := by
  decide

/-- C6 (as amended): a stage whose parsed argument list is empty executes no
program.  As the sole stage of its pipeline, `execute_redirect` returns at once:
no fork, no exec, the shell unchanged.  As a member of a multi-stage pipeline a
child is still forked for it whenever its `fork` succeeds (the stage is parsed
in the child), and that child exits with status 1 without calling exec. -/
theorem empty_stage_behaviour (env : Env) (stage : Text)
    (hempty : (parse_redirection env.tokenize stage).args = []) :
    (∀ (exec_line : Proc → Text → Option Result) (p : Proc),
        execute_redirect exec_line env (some stage) p = some (Result.returned p))
    ∧ (∀ (n i : Nat) (pipes : List (Nat × Nat)) (fds : FdTable),
        pipeline_child env n i pipes stage fds = ChildEnd.exit 1 [])
    ∧ (∀ (cmd : List Text) (p : Proc) (i : Nat),
        (∀ b ∈ p.pipe_results, b = true) → p.fork_results.getD i true = true →
        i < cmd.length → cmd.getD i [] = stage →
        ∀ c, Event.fork i c ∈ (execute_pipeline env cmd p).trace.drop p.trace.length
          ↔ c = ChildEnd.exit 1 []) := by
  have hchild : ∀ (n i : Nat) (pipes : List (Nat × Nat)) (fds : FdTable),
      pipeline_child env n i pipes stage fds = ChildEnd.exit 1 [] := by
    intro n i pipes fds
    unfold pipeline_child
    simp only [hempty, if_true]
  refine ⟨?_, hchild, ?_⟩
  · intro exec_line p
    unfold execute_redirect
    simp only [hempty, if_true]
  · intro cmd p i hpipe hfork hi hstage c
    obtain ⟨pipes, p1, _, _, hch⟩ := execute_pipeline_children env cmd p hpipe
    rw [hch, hstage, hchild]
    exact ⟨fun h => h.2.2, fun h => ⟨hi, hfork, h⟩⟩

/-- Witness for the amended C6 at the stage `< f`. -/
theorem empty_stage_behaviour_witness :
    (parse_redirection sample_env.tokenize "< f".toList).args = []
    ∧ (∀ (n i : Nat) (pipes : List (Nat × Nat)) (fds : FdTable),
        pipeline_child sample_env n i pipes "< f".toList fds = ChildEnd.exit 1 []) :=
  ⟨by decide, (empty_stage_behaviour sample_env "< f".toList (by decide)).2.1⟩

/-- C6 as stated fails in the pipeline `< f | cat`: stage 0 parses to no argument,
yet a child is forked for it. -/
theorem empty_stage_fork_counterexample :
    (parse_redirection sample_env.tokenize "< f".toList).args = []
    ∧ punctuation_split "< f | cat".toList '|' = ["< f".toList, "cat".toList]
    ∧ (0, ChildEnd.exit 1 [])
        ∈ forks_of (execute_pipeline sample_env ["< f".toList, "cat".toList] (fresh [] [])).trace
    ∧ (forks_of (execute_pipeline sample_env ["< f".toList, "cat".toList]
        (fresh [] [])).trace).length = 2 := by
  decide

/-! ## The quote flag and backslashes -/

theorem pieces_in_quotes (sep : Char) (rest : Text) :
    ∀ cur : Text, (∀ c ∈ rest, c ≠ '"') → pieces sep true cur rest = [cur ++ rest] := by
  induction rest with
  | nil => intro cur _; simp [pieces]
  | cons c rest ih =>
    intro cur h
    have hc : c ≠ '"' := h c (by simp)
    rw [pieces]
    simp only [hc, if_false, Bool.true_eq_false, and_false]
    rw [ih (cur ++ [c]) (fun x hx => h x (by simp [hx]))]
    simp

theorem pieces_plain_prefix (sep : Char) (pre rest : Text) :
    ∀ cur : Text, (∀ c ∈ pre, c ≠ '"' ∧ c ≠ sep) →
      pieces sep false cur (pre ++ rest) = pieces sep false (cur ++ pre) rest := by
  induction pre with
  | nil => intro cur _; simp
  | cons c pre ih =>
    intro cur h
    have hc := h c (by simp)
    rw [List.cons_append, pieces]
    simp only [hc.1, hc.2, if_false, false_and]
    rw [ih (cur ++ [c]) (fun x hx => h x (by simp [hx]))]
    simp

/-- C9 (as amended): every double-quote character toggles the quote flag, also
one that directly follows a backslash.  When the only double quote of a text is
such an escaped one and no separator stands before it, every separator after it
lies inside the quoted span the escaped quote opens: the text is not cut and the
single segment returned is the stripped text. -/
theorem escaped_quote_opens_span (pre post : Text) (sep : Char)
    (hbs : sep ≠ '\\')
    (hpre : ∀ c ∈ pre, c ≠ NUL ∧ c ≠ '"' ∧ c ≠ sep)
    (hpost : ∀ c ∈ post, c ≠ NUL ∧ c ≠ '"') :
    punctuation_split (pre ++ '\\' :: '"' :: post) sep
      = [strip (pre ++ '\\' :: '"' :: post)] := by
  have hnul : ∀ c ∈ pre ++ '\\' :: '"' :: post, c ≠ NUL := by
    intro c hc
    rcases List.mem_append.mp hc with hc | hc
    · exact (hpre c hc).1
    · rcases List.mem_cons.mp hc with hc | hc
      · rw [hc]; decide
      · rcases List.mem_cons.mp hc with hc | hc
        · rw [hc]; decide
        · exact (hpost c hc).1
  rw [punctuation_split_eq_pieces _ sep hnul,
    pieces_plain_prefix sep pre _ [] (fun c hc => ⟨(hpre c hc).2.1, (hpre c hc).2.2⟩)]
  have hb : ¬ ('\\' = sep) := fun h => hbs h.symm
  have h1 : pieces sep false ([] ++ pre) ('\\' :: '"' :: post)
      = [pre ++ '\\' :: '"' :: post] := by
    rw [pieces]
    simp only [show ¬ ('\\' = '"') by decide, if_false, hb, false_and]
    rw [pieces]
    simp only [if_true, Bool.not_false]
    rw [pieces_in_quotes sep post _ (fun c hc => (hpost c hc).2)]
    simp
  rw [h1]
  have hne : strip (pre ++ '\\' :: '"' :: post) ≠ [] :=
    strip_ne_nil_of_mem _ '"' (by simp) (by decide)
  simp [tidy, hne]

/-- Witness for the amended C9 at `echo \" ; ls` split on `;`. -/
theorem escaped_quote_opens_span_witness :
    punctuation_split ("echo ".toList ++ '\\' :: '"' :: " ; ls".toList) ';'
      = [strip ("echo ".toList ++ '\\' :: '"' :: " ; ls".toList)] :=
  escaped_quote_opens_span "echo ".toList " ; ls".toList ';' (by decide) (by decide)
    (by decide)

/-- C9 as stated fails: `echo \" ; ls` split on `;` is not cut into two segments;
the escaped quote opens a quoted span and the whole text is the only segment. -/
theorem escaped_quote_counterexample :
    punctuation_split "echo \\\" ; ls".toList ';' = ["echo \\\" ; ls".toList]
    ∧ (punctuation_split "echo \\\" ; ls".toList ';').length ≠ 2 := by
  decide

end Shell
